import Mathlib

/-!
# The request dispatcher of the functions gateway, and the publish helper

A shallow embedding of

* `api/server/runner.go`: `handleRunner` and `getRouteParams`;
* `fn/publish.go`: `extractAppNameRoute` and `reverse`;

together with the pieces of the Go standard library they call (`strings`,
`unicode`, `unicode/utf8`, `encoding/json`, `path/filepath`).

Conventions.  In `runner.go` a Go `string` is a Lean `String` (so only valid UTF-8
is covered there).  In `publish.go`, where `reverse` converts between `string` and
`[]rune`, a Go `string` is the list of its bytes, and a valid UTF-8 string is
`utf8.bytes s` for a text `s`.  A Go `map` is the list of its entries in the order
one `range` loop visits them; every statement below is quantified over that list,
hence over every iteration order.  Collaborators that live outside the sources
(datastore, execution backend, route trie, Unicode case table) are parameters.
-/

set_option autoImplicit false

/-! ## Standard library: `unicode` and `strings` -/

namespace unicode

/-- Go's `unicode.ToUpper`: ASCII runes are handled inline (`a`..`z` move down by
`'a' - 'A'`, every other ASCII rune is returned as it is); any other rune is looked
up in the Unicode case tables, which are the parameter `caseTable`. -/
def ToUpper (caseTable : Char → Char) (r : Char) : Char :=
  if r.toNat ≤ 0x7F then
    if 'a'.toNat ≤ r.toNat ∧ r.toNat ≤ 'z'.toNat then Char.ofNat (r.toNat - ('a'.toNat - 'A'.toNat))
    else r
  else caseTable r

end unicode

namespace strings

/-- Go's `strings.ToUpper`: every rune of `s` mapped through `unicode.ToUpper`. -/
def ToUpper (caseTable : Char → Char) (s : String) : String :=
  ⟨s.data.map (unicode.ToUpper caseTable)⟩

/-- Go's `strings.Join(elems, sep)`. -/
def Join : List String → String → String
  | [], _ => ""
  | [a], _ => a
  | a :: b :: rest, sep => a ++ sep ++ Join (b :: rest) sep

/-- Go's `strings.HasPrefix(s, p)`. -/
def HasPrefix (s p : String) : Bool :=
  p.data.isPrefixOf s.data

/-- The pieces of `s` between the occurrences of the one-character separator `sep`;
there is always at least one piece. -/
def splitChars (sep : Char) : List Char → List (List Char)
  | [] => [[]]
  | c :: cs =>
    if c = sep then [] :: splitChars sep cs
    else
      match splitChars sep cs with
      | [] => [[c]]
      | piece :: pieces => (c :: piece) :: pieces

/-- The pieces joined again, with `sep` between neighbours: the inverse of
`splitChars`. -/
def joinChars (sep : Char) : List (List Char) → List Char
  | [] => []
  | [a] => a
  | a :: b :: rest => a ++ sep :: joinChars sep (b :: rest)

/-- Go's `strings.Split(s, sep)` for a separator of one character (the program
only ever splits at `"/"`). -/
def Split (s : String) (sep : Char) : List String :=
  (splitChars sep s.data).map String.mk

end strings

/-! ## Standard library: `encoding/json` -/

namespace json

/-- The step functions of the scanner in `encoding/json/scanner.go`. -/
inductive Step
  | beginValueOrEmpty | beginValue | beginStringOrEmpty | beginString
  | endValue | endTop
  | inString | inStringEsc | inStringEscU | inStringEscU1 | inStringEscU12 | inStringEscU123
  | neg | s1 | s0 | dot | dot0 | e | eSign | e0
  | t | tr | tru | f | fa | fal | fals | n | nu | nul
  deriving DecidableEq, Repr

/-- What the scanner is in the middle of (`parseObjectKey`, `parseObjectValue`,
`parseArrayValue`). -/
inductive ParseState
  | objectKey | objectValue | arrayValue
  deriving DecidableEq, Repr

/-- The scanner: its current step function and the stack of enclosing composite
values, innermost first.  `endTop` of the Go struct is `step = Step.endTop`. -/
structure scanner where
  step : Step
  parseState : List ParseState
  deriving DecidableEq, Repr

def isSpace (c : Char) : Bool :=
  c = ' ' || c = '\t' || c = '\r' || c = '\n'

def isDigit (c : Char) : Bool :=
  '0'.toNat ≤ c.toNat && c.toNat ≤ '9'.toNat

def isDigit19 (c : Char) : Bool :=
  '1'.toNat ≤ c.toNat && c.toNat ≤ '9'.toNat

def isHex (c : Char) : Bool :=
  isDigit c || ('a'.toNat ≤ c.toNat && c.toNat ≤ 'f'.toNat)
    || ('A'.toNat ≤ c.toNat && c.toNat ≤ 'F'.toNat)

/-- Go's `stateEndTop`: after the top-level value only white space may follow. -/
def stateEndTop (c : Char) : Option scanner :=
  if isSpace c then some ⟨.endTop, []⟩ else none

/-- Go's `stateEndValue` (with `popParseState` inlined): what may follow a
complete value. -/
def stateEndValue (ps : List ParseState) (c : Char) : Option scanner :=
  match ps with
  | [] => stateEndTop c
  | p :: rest =>
    if isSpace c then some ⟨.endValue, p :: rest⟩
    else
      match p with
      | .objectKey =>
        if c = ':' then some ⟨.beginValue, .objectValue :: rest⟩ else none
      | .objectValue =>
        if c = ',' then some ⟨.beginString, .objectKey :: rest⟩
        else if c = '}' then some ⟨if rest = [] then .endTop else .endValue, rest⟩
        else none
      | .arrayValue =>
        if c = ',' then some ⟨.beginValue, .arrayValue :: rest⟩
        else if c = ']' then some ⟨if rest = [] then .endTop else .endValue, rest⟩
        else none

/-- Go's `stateBeginValue`. -/
def stateBeginValue (ps : List ParseState) (c : Char) : Option scanner :=
  if isSpace c then some ⟨.beginValue, ps⟩
  else if c = '{' then some ⟨.beginStringOrEmpty, .objectKey :: ps⟩
  else if c = '[' then some ⟨.beginValueOrEmpty, .arrayValue :: ps⟩
  else if c = '"' then some ⟨.inString, ps⟩
  else if c = '-' then some ⟨.neg, ps⟩
  else if c = '0' then some ⟨.s0, ps⟩
  else if c = 't' then some ⟨.t, ps⟩
  else if c = 'f' then some ⟨.f, ps⟩
  else if c = 'n' then some ⟨.n, ps⟩
  else if isDigit19 c then some ⟨.s1, ps⟩
  else none

/-- Go's `stateBeginString`. -/
def stateBeginString (ps : List ParseState) (c : Char) : Option scanner :=
  if isSpace c then some ⟨.beginString, ps⟩
  else if c = '"' then some ⟨.inString, ps⟩
  else none

/-- Go's `state0`: after a leading `0` (or the integer part) of a number. -/
def state0 (ps : List ParseState) (c : Char) : Option scanner :=
  if c = '.' then some ⟨.dot, ps⟩
  else if c = 'e' || c = 'E' then some ⟨.e, ps⟩
  else stateEndValue ps c

/-- Go's `stateESign`. -/
def stateESign (ps : List ParseState) (c : Char) : Option scanner :=
  if isDigit c then some ⟨.e0, ps⟩ else none

/-- One call `s.step(s, c)`; `none` is `scanError`. -/
def scanner.next (s : scanner) (c : Char) : Option scanner :=
  match s.step with
  | .beginValueOrEmpty =>
    if isSpace c then some s
    else if c = ']' then stateEndValue s.parseState c
    else stateBeginValue s.parseState c
  | .beginValue => stateBeginValue s.parseState c
  | .beginStringOrEmpty =>
    if isSpace c then some s
    else if c = '}' then
      match s.parseState with
      | [] => none
      | _ :: rest => stateEndValue (.objectValue :: rest) c
    else stateBeginString s.parseState c
  | .beginString => stateBeginString s.parseState c
  | .endValue => stateEndValue s.parseState c
  | .endTop => stateEndTop c
  | .inString =>
    if c = '"' then some ⟨.endValue, s.parseState⟩
    else if c = '\\' then some ⟨.inStringEsc, s.parseState⟩
    else if c.toNat < 0x20 then none
    else some s
  | .inStringEsc =>
    if c = 'b' || c = 'f' || c = 'n' || c = 'r' || c = 't' || c = '\\' || c = '/' || c = '"' then
      some ⟨.inString, s.parseState⟩
    else if c = 'u' then some ⟨.inStringEscU, s.parseState⟩
    else none
  | .inStringEscU => if isHex c then some ⟨.inStringEscU1, s.parseState⟩ else none
  | .inStringEscU1 => if isHex c then some ⟨.inStringEscU12, s.parseState⟩ else none
  | .inStringEscU12 => if isHex c then some ⟨.inStringEscU123, s.parseState⟩ else none
  | .inStringEscU123 => if isHex c then some ⟨.inString, s.parseState⟩ else none
  | .neg =>
    if c = '0' then some ⟨.s0, s.parseState⟩
    else if isDigit19 c then some ⟨.s1, s.parseState⟩
    else none
  | .s1 => if isDigit c then some ⟨.s1, s.parseState⟩ else state0 s.parseState c
  | .s0 => state0 s.parseState c
  | .dot => if isDigit c then some ⟨.dot0, s.parseState⟩ else none
  | .dot0 =>
    if isDigit c then some s
    else if c = 'e' || c = 'E' then some ⟨.e, s.parseState⟩
    else stateEndValue s.parseState c
  | .e =>
    if c = '+' || c = '-' then some ⟨.eSign, s.parseState⟩ else stateESign s.parseState c
  | .eSign => stateESign s.parseState c
  | .e0 => if isDigit c then some s else stateEndValue s.parseState c
  | .t => if c = 'r' then some ⟨.tr, s.parseState⟩ else none
  | .tr => if c = 'u' then some ⟨.tru, s.parseState⟩ else none
  | .tru => if c = 'e' then some ⟨.endValue, s.parseState⟩ else none
  | .f => if c = 'a' then some ⟨.fa, s.parseState⟩ else none
  | .fa => if c = 'l' then some ⟨.fal, s.parseState⟩ else none
  | .fal => if c = 's' then some ⟨.fals, s.parseState⟩ else none
  | .fals => if c = 'e' then some ⟨.endValue, s.parseState⟩ else none
  | .n => if c = 'u' then some ⟨.nu, s.parseState⟩ else none
  | .nu => if c = 'l' then some ⟨.nul, s.parseState⟩ else none
  | .nul => if c = 'l' then some ⟨.endValue, s.parseState⟩ else none

/-- The loop of Go's `checkValid`: feed every character to the scanner. -/
def scanAll : scanner → List Char → Option scanner
  | s, [] => some s
  | s, c :: cs =>
    match s.next c with
    | none => none
    | some s1 => scanAll s1 cs

/-- Go's `scanner.eof`: the input may stop where the top-level value is complete,
or where one more space would complete it (a number at the very end). -/
def scanner.eof (s : scanner) : Bool :=
  if s.step = .endTop then true
  else
    match s.next ' ' with
    | some s1 => s1.step = .endTop
    | none => false

/-- Go's `checkValid`: `true` when `data` is one syntactically valid JSON value. -/
def checkValid (data : List Char) : Bool :=
  match scanAll ⟨.beginValue, []⟩ data with
  | none => false
  | some s => s.eof

/-- The first character of `data` that is not JSON white space. -/
def firstNonSpace : List Char → Option Char
  | [] => none
  | c :: cs => if isSpace c then firstNonSpace cs else some c

/-- Go's `json.Unmarshal(data, &m)` for `var m map[string]interface{}`; `true` means
the returned error is nil.  The input must pass `checkValid`; then an object is
decoded into the map (its numbers go through `strconv.ParseFloat`, whose range check
over the document's number literals is the parameter `numbersFit`), the literal
`null` leaves the map nil without an error, and every other value (array, string,
number, boolean) is an `UnmarshalTypeError`. -/
def Unmarshal (numbersFit : String → Bool) (data : String) : Bool :=
  checkValid data.data &&
    match firstNonSpace data.data with
    | some '{' => numbersFit data
    | some 'n' => true
    | _ => false

end json

/-! ## `api/server/runner.go` -/

namespace server

/-- A Go `map[string]string` used as environment: the operations the handler needs
are assignment `m[k] = v` and the value stored at a key. -/
abbrev EnvVars := List (String × String)

/-- The assignment `m[k] = v`: replaces the value when `k` is present, adds the entry
otherwise. -/
def EnvVars.set : EnvVars → String → String → EnvVars
  | [], k, v => [(k, v)]
  | (k1, v1) :: m, k, v => if k1 = k then (k, v) :: m else (k1, v1) :: EnvVars.set m k v

/-- The lookup `m[k]`; `none` when the key is absent. -/
def EnvVars.get : EnvVars → String → Option String
  | [], _ => none
  | (k1, v1) :: m, k => if k1 = k then some v1 else EnvVars.get m k

/-- The fields of `models.App` the handler reads; the map is given as the list of its
entries in iteration order. -/
structure App where
  Config : List (String × String)
  deriving DecidableEq, Repr

/-- The fields of `models.Route` the handler reads; `Headers` is an `http.Header`,
a map from a name to a list of values. -/
structure Route where
  Path : String
  Image : String
  Config : List (String × String)
  Headers : List (String × List String)
  deriving DecidableEq, Repr

/-- One bound path parameter, `Param` of the route trie. -/
structure Param where
  Key : String
  Value : String
  deriving DecidableEq, Repr

abbrev Params := List Param

/-- The handler type stored in the trie; `getRouteParams` only ever stores
`fakeHandler`, which does nothing. -/
inductive Handle
  | fakeHandler
  deriving DecidableEq, Repr

/-- The route trie as `getRouteParams` uses it: an empty tree `&node{}`, `addRoute` and
`getValue` (handler or nil, bound parameters, trailing-slash advice).  Its
implementation is not part of these sources, so the handler is stated over any. -/
structure Tree where
  node : Type
  zero : node
  addRoute : node → String → Handle → node
  getValue : node → String → Option Handle × Params × Bool

/-- `getRouteParams` of runner.go: build a tree holding only `baseRoute`, look
`route` up in it and return its parameters, or `(nil, false)` without a handler. -/
def getRouteParams (T : Tree) (baseRoute route : String) : Params × Bool :=
  let tree := T.addRoute T.zero baseRoute Handle.fakeHandler
  match T.getValue tree route with
  | (none, _, _) => ([], false)
  | (some _, p, _) => (p, true)

/-- What the handler reads of the `gin.Context`: the request (`Body` is what
`ioutil.ReadAll` returns, `QueryPayload` is `URL.Query()["payload"]`), the gin path
parameters `app` and `route`, the context value `app` a special handler may have
set (a string), and the request id (a UUID over remote address, path and clock). -/
structure Request where
  Method : String
  Path : String
  URL : String
  Body : String
  QueryPayload : List String
  Header : List (String × List String)
  ParamApp : String
  ParamRoute : String
  CtxApp : Option String
  ReqID : String
  deriving DecidableEq, Repr

/-- The `runner.Config` handed to the execution backend (the two sinks are left
out: the captured standard output comes back in `RunResult`). -/
structure Config where
  Image : String
  Timeout : Nat
  ID : String
  AppName : String
  Env : EnvVars
  deriving DecidableEq, Repr

/-- A backend run that returned no error: `result.Status()` and what it wrote to
`cfg.Stdout`. -/
structure RunResult where
  Status : String
  Stdout : String
  deriving DecidableEq, Repr

/-- The collaborators behind the global `Api`, and the library tables.  A datastore
call returns Go's pair (value or nil, error or nil); `Run` returns an error or a
result. -/
structure Api where
  GetApp : String → Option App × Option String
  GetRoute : String → String → Option Route × Option String
  Run : Config → Except String RunResult
  tree : Tree
  caseTable : Char → Char
  numbersFit : String → Bool

/-- The error values of package `models` the handler answers with. -/
inductive ModelsError
  | ErrInvalidJSON | ErrAppsNotFound | ErrRoutesList | ErrRunnerRunRoute
  deriving DecidableEq, Repr

/-- The body written to the response. -/
inductive Body
  | empty
  | simpleError (e : ModelsError)
  | data (bytes : String)
  deriving DecidableEq, Repr

/-- A call the handler makes on a collaborator, in program order. -/
inductive Call
  | GetApp (appName : String)
  | GetRoute (appName routeBasePath : String)
  | LogMetricCount (name : String) (count : Nat)
  | LogMetricTime (name : String)
  | Run (cfg : Config)
  deriving DecidableEq, Repr

/-- What one run of the handler did: the collaborator calls, the status and body it
wrote (`status = none`: nothing was written), the `c.Header(k, v)` calls, and
whether it ended in a run-time panic. -/
structure Outcome where
  calls : List Call
  status : Option Nat
  body : Body
  headers : List (String × String)
  panicked : Bool
  deriving DecidableEq, Repr

/-- Lines 50-58: the payload is the body for POST and PUT, the first `payload`
query value for GET, and empty otherwise. -/
def payloadOf (c : Request) : String :=
  if c.Method = "POST" ∨ c.Method = "PUT" then c.Body
  else if c.Method = "GET" then
    match c.QueryPayload with
    | [] => ""
    | q :: _ => q
  else ""

/-- Lines 71-78: the app name is the path parameter, else the context value. -/
def appNameOf (c : Request) : String :=
  if c.ParamApp = "" then
    match c.CtxApp with
    | some a => a
    | none => ""
  else c.ParamApp

/-- Lines 86-89. -/
def routePathOf (c : Request) : String :=
  if c.ParamRoute = "" then c.Path else c.ParamRoute

/-- Line 90: `"/" + strings.Split(routePath, "/")[1]`; `none` is the index-out-of-range
panic when the path holds no slash. -/
def routeBasePathOf (routePath : String) : Option String :=
  match strings.Split routePath '/' with
  | _ :: seg :: _ => some ("/" ++ seg)
  | _ => none

/-- Lines 119-150: the environment of the function call. -/
def envVars (caseTable : Char → Char) (c : Request) (app : App) (route : Route)
    (payload : String) (params : Params × Bool) : EnvVars :=
  let e0 : EnvVars :=
    [("METHOD", c.Method), ("ROUTE", route.Path), ("PAYLOAD", payload), ("REQUEST_URL", c.URL)]
  let e1 := app.Config.foldl
    (fun e kv => e.set ("CONFIG_" ++ strings.ToUpper caseTable kv.1) kv.2) e0
  let e2 := route.Config.foldl
    (fun e kv => e.set ("CONFIG_" ++ strings.ToUpper caseTable kv.1) kv.2) e1
  let e3 :=
    if params.2 then
      params.1.foldl (fun e p => e.set ("PARAM_" ++ strings.ToUpper caseTable p.Key) p.Value) e2
    else e2
  c.Header.foldl
    (fun e hv => e.set ("HEADER_" ++ strings.ToUpper caseTable hv.1) (strings.Join hv.2 " ")) e3

/-- Lines 167-169: `for k, v := range route.Headers { c.Header(k, v[0]) }`.  Returns
the `c.Header` calls made and whether `v[0]` panicked on an empty list. -/
def copyHeaders : List (String × List String) → List (String × String) × Bool
  | [] => ([], false)
  | (_, []) :: _ => ([], true)
  | (k, v0 :: _) :: rest =>
    let r := copyHeaders rest
    ((k, v0) :: r.1, r.2)

/-- The handler `handleRunner` of runner.go. -/
def handleRunner (api : Api) (c : Request) : Outcome :=
  if strings.HasPrefix c.Path "/v1" then
    ⟨[], some 404, .empty, [], false⟩
  else
    let payload := payloadOf c
    if payload.length > 0 ∧ json.Unmarshal api.numbersFit payload = false then
      ⟨[], some 400, .simpleError .ErrInvalidJSON, [], false⟩
    else
      let appName := appNameOf c
      if appName = "" then
        ⟨[], some 400, .simpleError .ErrAppsNotFound, [], false⟩
      else
        let routePath := routePathOf c
        match routeBasePathOf routePath with
        | none => ⟨[], none, .empty, [], true⟩
        | some routeBasePath =>
          match api.GetApp appName with
          | (some app, none) =>
            match api.GetRoute appName routeBasePath with
            | (some route, none) =>
              let metricBaseName := "server.handleRunner." ++ appName ++ "."
              let cfg : Config :=
                { Image := route.Image, Timeout := 30, ID := c.ReqID, AppName := appName,
                  Env := envVars api.caseTable c app route payload
                    (getRouteParams api.tree route.Path routePath) }
              let before : List Call :=
                [.GetApp appName, .GetRoute appName routeBasePath,
                 .LogMetricCount (metricBaseName ++ "requests") 1, .Run cfg]
              match api.Run cfg with
              | .error _ =>
                ⟨before ++ [.LogMetricTime (metricBaseName ++ "time")],
                  some 500, .simpleError .ErrRunnerRunRoute, [], false⟩
              | .ok result =>
                match copyHeaders route.Headers with
                | (hs, true) => ⟨before, none, .empty, hs, true⟩
                | (hs, false) =>
                  if result.Status = "success" then
                    ⟨before ++ [.LogMetricCount (metricBaseName ++ "succeeded") 1,
                        .LogMetricTime (metricBaseName ++ "time")],
                      some 200, .data result.Stdout, hs, false⟩
                  else
                    ⟨before ++ [.LogMetricCount (metricBaseName ++ "error") 1,
                        .LogMetricTime (metricBaseName ++ "time")],
                      some 500, .empty, hs, false⟩
            | _ => ⟨[.GetApp appName, .GetRoute appName routeBasePath],
                some 500, .simpleError .ErrRoutesList, [], false⟩
          | _ => ⟨[.GetApp appName], some 404, .simpleError .ErrAppsNotFound, [], false⟩

end server

/-! ## The route trie, from the specification

`api/server/tree.go` (the `node` type with `addRoute` and `getValue`) is not among
the sources.  The definitions of this section follow section 4.1 of the
specification and are used to instantiate `server.Tree`. -/

namespace server

/-- Modelled from the spec: the three kinds of pattern segment of the missing route
trie (section 4.1): a literal segment matches exact bytes, a named-parameter segment
`:name` matches exactly one path segment and binds it, a trailing wildcard `*name`
matches the remainder of the path, further slashes included. -/
inductive Segment
  | literal (text : String)
  | named (name : String)
  | wildcard (name : String)
  deriving DecidableEq, Repr

/-- Modelled from the spec: how the missing `addRoute` reads one segment of a
pattern: `:name` is a named parameter, `*name` a wildcard, anything else a literal. -/
def Segment.parse (s : String) : Segment :=
  match s.data with
  | ':' :: name => .named ⟨name⟩
  | '*' :: name => .wildcard ⟨name⟩
  | _ => .literal s

/-- Modelled from the spec: the wildcard of the missing trie is a trailing segment;
this holds when no wildcard stands before the last position. -/
def trailingWildcard : List Segment → Bool
  | [] => true
  | [_] => true
  | .wildcard _ :: _ :: _ => false
  | _ :: s :: rest => trailingWildcard (s :: rest)

/-- Modelled from the spec: the missing trie `node`, represented by the patterns
registered in it, each with its handler (the prefix compression of the real tree is
a storage matter that matching does not observe). -/
structure node where
  routes : List (List Segment × Handle)
  deriving DecidableEq, Repr

/-- Modelled from the spec: the conflict rule of the missing `addRoute` (sections 4.1
and 8): two patterns conflict when, after a common prefix, both continue with a
named parameter of different names or both with a wildcard, or when they are the
same pattern. -/
def conflicts : List Segment → List Segment → Bool
  | [], [] => true
  | .literal a :: p, .literal b :: q => a = b && conflicts p q
  | .named a :: p, .named b :: q => if a = b then conflicts p q else true
  | .wildcard _ :: _, .wildcard _ :: _ => true
  | _, _ => false

/-- Modelled from the spec: the missing `node.addRoute(pattern, handler)`: the pattern
is cut at its slashes and registered, unless its wildcard is not trailing or it
conflicts with a registered pattern; such a registration is rejected and the tree
stays as it was. -/
def node.addRoute (n : node) (path : String) (handle : Handle) : node :=
  let pattern := (strings.Split path '/').map Segment.parse
  if trailingWildcard pattern ∧ n.routes.all (fun r => !conflicts r.1 pattern) then
    ⟨n.routes ++ [(pattern, handle)]⟩
  else n

/-- Modelled from the spec: one pattern of the missing trie against the segments of a
concrete path; the bindings come in the order the parameters occur in the pattern. -/
def matchSegments : List Segment → List String → Option Params
  | [], [] => some []
  | [], _ :: _ => none
  | .literal text :: pattern, seg :: rest =>
    if seg = text then matchSegments pattern rest else none
  | .named name :: pattern, seg :: rest =>
    match matchSegments pattern rest with
    | some ps => some (⟨name, seg⟩ :: ps)
    | none => none
  | .wildcard name :: _, seg :: rest => some [⟨name, strings.Join (seg :: rest) "/"⟩]
  | _ :: _, [] => none

/-- Modelled from the spec: the precedence of the missing `getValue` at one position,
static before parametric before wildcard. -/
def Segment.rank : Segment → Nat
  | .literal _ => 0
  | .named _ => 1
  | .wildcard _ => 2

/-- Modelled from the spec: `p` is tried before `q` by the missing `getValue`: at the
first position where their kinds differ, `p` has the more specific kind. -/
def moreSpecific : List Segment → List Segment → Bool
  | [], _ => true
  | _ :: _, [] => false
  | a :: p, b :: q =>
    if a.rank < b.rank then true
    else if b.rank < a.rank then false
    else moreSpecific p q

/-- Modelled from the spec: the search of the missing `getValue` over the registered
patterns: of those that match, the most specific one wins. -/
def bestMatch (segs : List String) :
    List (List Segment × Handle) → Option (List Segment × Handle × Params)
  | [] => none
  | (pattern, handle) :: routes =>
    match matchSegments pattern segs, bestMatch segs routes with
    | none, found => found
    | some ps, none => some (pattern, handle, ps)
    | some ps, some (q, h, qs) =>
      if moreSpecific pattern q then some (pattern, handle, ps) else some (q, h, qs)

/-- Modelled from the spec: the missing `node.getValue(path)`: the handler and ordered
bindings of the matching pattern, or no handler (a not-found signal).  The third
result, the trailing-slash advice of the real tree, is never read by the sources and
is always `false` here. -/
def node.getValue (n : node) (path : String) : Option Handle × Params × Bool :=
  match bestMatch (strings.Split path '/') n.routes with
  | some (_, handle, ps) => (some handle, ps, false)
  | none => (none, [], false)

/-- Modelled from the spec: the missing route trie packaged for `getRouteParams`;
`zero` is the empty tree `&node{}`. -/
def specTree : Tree :=
  { node := node, zero := ⟨[]⟩, addRoute := node.addRoute, getValue := node.getValue }

end server

/-! ## Vocabulary for the statements about the route parameters -/

namespace server

/-- The text of one pattern segment, as it is written in a route pattern. -/
def Segment.render : Segment → String
  | .literal text => text
  | .named name => ":" ++ name
  | .wildcard name => "*" ++ name

/-- The route pattern with the given segments, e.g. `/users/:id` for
`[literal "", literal "users", named "id"]` (the empty first segment is the text
before the leading slash). -/
def renderPattern (pattern : List Segment) : String :=
  strings.Join (pattern.map Segment.render) "/"

/-- The segments of the concrete path obtained from `pattern` by substituting
`values`, in order, for its parameters. -/
def substitute : List Segment → List String → List String
  | [], _ => []
  | .literal text :: pattern, values => text :: substitute pattern values
  | .named _ :: pattern, v :: values => v :: substitute pattern values
  | .wildcard _ :: pattern, v :: values => v :: substitute pattern values
  | _ :: pattern, [] => "" :: substitute pattern []

/-- The concrete path obtained from `pattern` by substituting `values`. -/
def instantiate (pattern : List Segment) (values : List String) : String :=
  strings.Join (substitute pattern values) "/"

/-- The parameters of `pattern` in declaration order, each bound to the value
substituted for it. -/
def bindings : List Segment → List String → Params
  | [], _ => []
  | .literal _ :: pattern, values => bindings pattern values
  | .named name :: pattern, v :: values => ⟨name, v⟩ :: bindings pattern values
  | .wildcard name :: pattern, v :: values => ⟨name, v⟩ :: bindings pattern values
  | _ :: pattern, [] => bindings pattern []

/-- A segment whose text survives being written into a pattern and read back: it
holds no slash, and a literal does not start with `:` or `*` (it would read as a
parameter). -/
def Segment.WellFormed : Segment → Prop
  | .literal text =>
    '/' ∉ text.data ∧ text.data.head? ≠ some ':' ∧ text.data.head? ≠ some '*'
  | .named name => '/' ∉ name.data
  | .wildcard name => '/' ∉ name.data

/-- A pattern "made of literal, named-parameter and trailing-wildcard segments": it
has a segment, every segment is well formed, and a wildcard stands only in the last
place. -/
def WellFormed (pattern : List Segment) : Prop :=
  pattern ≠ [] ∧ trailingWildcard pattern = true ∧ ∀ s ∈ pattern, s.WellFormed

/-- Values that can be substituted for the parameters of `pattern`: one per
parameter, and the value of a named parameter is a single path segment (it holds no
slash); the value of the wildcard is any remainder. -/
def Substitutable : List Segment → List String → Prop
  | [], values => values = []
  | .literal _ :: pattern, values => Substitutable pattern values
  | .named _ :: pattern, v :: values => '/' ∉ v.data ∧ Substitutable pattern values
  | .wildcard _ :: pattern, _ :: values => Substitutable pattern values
  | .named _ :: _, [] => False
  | .wildcard _ :: _, [] => False

/-- The configuration built at lines 152-160 for a resolved app and route. -/
def cfgOf (api : Api) (c : Request) (app : App) (route : Route) : Config :=
  { Image := route.Image, Timeout := 30, ID := c.ReqID, AppName := appNameOf c,
    Env := envVars api.caseTable c app route (payloadOf c)
      (getRouteParams api.tree route.Path (routePathOf c)) }

/-! ### A concrete deployment used to evaluate the handler -/

/-- The app `demo` with configuration `{"A": "1"}`. -/
def demoApp : App := ⟨[("A", "1")]⟩

/-- The route `/hello` of app `demo`: image `X`, configuration `{"A": "2"}`. -/
def demoRoute : Route :=
  { Path := "/hello", Image := "X", Config := [("A", "2")],
    Headers := [("Content-Type", ["text/plain"])] }

/-- A datastore that holds only the app `demo`, with `route` stored (or not) at
`/hello`, and a backend whose `Run` returns `result`. -/
def demoApi (route : Option Route) (result : Except String RunResult) : Api :=
  { GetApp := fun appName => if appName = "demo" then (some demoApp, none) else (none, none)
    GetRoute := fun appName path =>
      if appName = "demo" ∧ path = "/hello" then (route, none) else (none, none)
    Run := fun _ => result
    tree := specTree
    caseTable := fun r => r
    numbersFit := fun _ => true }

/-- The request `GET /r/demo/hello` with the header `X-Foo: a` and `X-Foo: b`. -/
def demoRequest : Request :=
  { Method := "GET", Path := "/r/demo/hello", URL := "/r/demo/hello", Body := "",
    QueryPayload := [], Header := [("X-Foo", ["a", "b"])],
    ParamApp := "demo", ParamRoute := "/hello", CtxApp := none, ReqID := "req-1" }

end server

/-! ## Standard library: `unicode/utf8` and the conversions between `string` and `[]rune`

In `fn/publish.go` a Go `string` is the list of its bytes and a `[]rune` the list of
its code points, both as natural numbers (a byte is below 256): `reverse` converts
between the two, and the conversion is not lossless on a string that is not valid
UTF-8. -/

namespace utf8

/-- Go's `utf8.RuneError`, U+FFFD. -/
def RuneError : Nat := 0xFFFD

/-- The lowest second byte accepted after the first byte `p0` (Go's table
`acceptRanges`). -/
def acceptLo (p0 : Nat) : Nat :=
  if p0 = 0xE0 then 0xA0 else if p0 = 0xF0 then 0x90 else 0x80

/-- The highest second byte accepted after the first byte `p0`. -/
def acceptHi (p0 : Nat) : Nat :=
  if p0 = 0xED then 0x9F else if p0 = 0xF4 then 0x8F else 0xBF

/-- Go's `utf8.DecodeRune`: the first rune of `p` and the number of bytes it takes.
A first byte that starts no encoding, a missing or unacceptable continuation byte
(which excludes over-long forms, surrogates and values past U+10FFFF) give
`(RuneError, 1)`; the empty input gives `(RuneError, 0)`. -/
def DecodeRune (p : List Nat) : Nat × Nat :=
  match p with
  | [] => (RuneError, 0)
  | p0 :: rest =>
    if p0 < 0x80 then (p0, 1)
    else if p0 < 0xC2 ∨ 0xF4 < p0 then (RuneError, 1)
    else
      match rest with
      | [] => (RuneError, 1)
      | b1 :: rest1 =>
        if b1 < acceptLo p0 ∨ acceptHi p0 < b1 then (RuneError, 1)
        else if p0 < 0xE0 then (p0 % 0x20 * 0x40 + b1 % 0x40, 2)
        else
          match rest1 with
          | [] => (RuneError, 1)
          | b2 :: rest2 =>
            if b2 < 0x80 ∨ 0xBF < b2 then (RuneError, 1)
            else if p0 < 0xF0 then (p0 % 0x10 * 0x1000 + b1 % 0x40 * 0x40 + b2 % 0x40, 3)
            else
              match rest2 with
              | [] => (RuneError, 1)
              | b3 :: _ =>
                if b3 < 0x80 ∨ 0xBF < b3 then (RuneError, 1)
                else
                  (p0 % 0x08 * 0x40000 + b1 % 0x40 * 0x1000 + b2 % 0x40 * 0x40 + b3 % 0x40, 4)

/-- Go's `utf8.EncodeRune`: the UTF-8 encoding of the rune `r`; a surrogate or a
value past U+10FFFF is encoded as `RuneError`. -/
def EncodeRune (r : Nat) : List Nat :=
  if r ≤ 0x7F then [r]
  else if r ≤ 0x7FF then [0xC0 + r / 0x40, 0x80 + r % 0x40]
  else if 0x10FFFF < r ∨ (0xD800 ≤ r ∧ r ≤ 0xDFFF) then [0xEF, 0xBF, 0xBD]
  else if r ≤ 0xFFFF then [0xE0 + r / 0x1000, 0x80 + r / 0x40 % 0x40, 0x80 + r % 0x40]
  else
    [0xF0 + r / 0x40000, 0x80 + r / 0x1000 % 0x40, 0x80 + r / 0x40 % 0x40, 0x80 + r % 0x40]

/-- The loop of the conversion `[]rune(s)`: decode a rune, skip its bytes, go on.
`fuel` bounds the number of runes; a string has at most as many as bytes. -/
def toRunesLoop : Nat → List Nat → List Nat
  | 0, _ => []
  | _ + 1, [] => []
  | fuel + 1, b :: bs =>
    (DecodeRune (b :: bs)).1 :: toRunesLoop fuel ((b :: bs).drop (DecodeRune (b :: bs)).2)

/-- The conversion `[]rune(s)`. -/
def toRunes (s : List Nat) : List Nat :=
  toRunesLoop s.length s

/-- The conversion `string(r)` of a rune slice. -/
def fromRunes : List Nat → List Nat
  | [] => []
  | r :: rs => EncodeRune r ++ fromRunes rs

/-- The UTF-8 encoding of a sequence of Unicode characters. -/
def encode (cs : List Char) : List Nat :=
  fromRunes (cs.map Char.toNat)

/-- The Go string with the text `s`: the bytes of its UTF-8 encoding.  The strings
of this form are exactly the valid UTF-8 strings. -/
def bytes (s : String) : List Nat :=
  encode s.data

end utf8

/-! ## Standard library: `path/filepath` (Unix) -/

namespace filepath

/-- Go's `filepath.Separator`, the byte `/`. -/
def Separator : Nat := 0x2F

/-- Go's `filepath.Split`: the path is cut right after its last separator, found by
walking back from the end; without a separator the directory part is empty. -/
def Split (path : List Nat) : List Nat × List Nat :=
  (path.rdropWhile (fun b => b ≠ Separator), path.rtakeWhile (fun b => b ≠ Separator))

/-- The elements of a path: the pieces between its separators. -/
def elements : List Nat → List (List Nat)
  | [] => [[]]
  | b :: bs =>
    if b = Separator then [] :: elements bs
    else
      match elements bs with
      | [] => [[b]]
      | e :: es => (b :: e) :: es

/-- The elements written as a path again, a separator between neighbours. -/
def joinElems : List (List Nat) → List Nat
  | [] => []
  | [e] => e
  | e :: e1 :: es => e ++ Separator :: joinElems (e1 :: es)

/-- The element loop of Go's `filepath.Clean`, on the elements between separators:
empty elements and `.` are dropped; `..` removes the element before it when there
is one to remove, is dropped at the root, and is kept otherwise.  `out` is the
output so far, last element first. -/
def cleanElems (rooted : Bool) : List (List Nat) → List (List Nat) → List (List Nat)
  | [], out => out.reverse
  | e :: es, out =>
    if e = [] ∨ e = [0x2E] then cleanElems rooted es out
    else if e = [0x2E, 0x2E] then
      match out with
      | [] => if rooted then cleanElems rooted es [] else cleanElems rooted es [e]
      | top :: below =>
        if top = [0x2E, 0x2E] then cleanElems rooted es (e :: top :: below)
        else cleanElems rooted es below
    else cleanElems rooted es (e :: out)

/-- Go's `filepath.Clean`: the shortest path naming the same place, by purely lexical
processing; the empty result is `.`. -/
def Clean (path : List Nat) : List Nat :=
  let rooted : Bool := path.head? = some Separator
  let out := (if rooted then [Separator] else []) ++ joinElems (cleanElems rooted (elements path) [])
  if out = [] then [0x2E] else out

/-- Go's `filepath.Dir`: everything up to the last separator, cleaned. -/
def Dir (path : List Nat) : List Nat :=
  Clean (Split path).1

end filepath

/-! ## `fn/publish.go` -/

namespace fn

/-- The assignment `r[i], r[j] = r[j], r[i]` on a rune slice (the loop of `reverse`
only passes indices inside the slice; outside it Go would panic and the slice is
returned as it is). -/
def swap (r : List Nat) (i j : Nat) : List Nat :=
  match r[i]?, r[j]? with
  | some a, some b => (r.set i b).set j a
  | _, _ => r

/-- The loop of `reverse`: `for i, j := 0, len(r)-1; i < len(r)/2; i, j = i+1, j-1`.
`fuel` bounds the number of iterations; `len(r)/2` of them are made. -/
def reverseLoop : Nat → List Nat → Nat → Nat → List Nat
  | 0, r, _, _ => r
  | fuel + 1, r, i, j =>
    if i < r.length / 2 then reverseLoop fuel (swap r i j) (i + 1) (j - 1) else r

/-- The function `reverse` of publish.go: `r := []rune(s)`, the swap loop,
`string(r)`. -/
def reverse (s : List Nat) : List Nat :=
  let r := utf8.toRunes s
  utf8.fromRunes (reverseLoop r.length r 0 (r.length - 1))

/-- The characters of `r1/r2/.../rn/`: every component followed by a slash. -/
def withSlashes : List String → List Char
  | [] => []
  | r :: rs => r.data ++ '/' :: withSlashes rs

/-- The function `extractAppNameRoute` of publish.go. -/
def extractAppNameRoute (path : List Nat) : List Nat × List Nat :=
  let rpath := reverse path
  let (rroute, rappName) := filepath.Split rpath
  let route := filepath.Dir (reverse rroute)
  (reverse rappName, route)

end fn

/-! # Theorems -/

/-! ## The environment map -/

namespace server

/-- Reading a key after an assignment: the assigned value at that key, the old value
elsewhere. -/
theorem EnvVars.get_set (m : EnvVars) (k v k1 : String) :
    (m.set k v).get k1 = if k = k1 then some v else m.get k1 := by
  induction m with
  | nil => simp [EnvVars.set, EnvVars.get]
  | cons kv m ih =>
    obtain ⟨a, b⟩ := kv
    by_cases h : a = k
    · subst h
      simp [EnvVars.set, EnvVars.get]
      by_cases h1 : a = k1 <;> simp [h1]
    · simp only [EnvVars.set, h, if_false, EnvVars.get, ih]
      by_cases h1 : a = k1
      · have : ¬ k = k1 := fun e => h (h1.trans e.symm)
        simp [h1, this]
      · simp [h1]

/-- A `range` loop of assignments leaves every key it never assigns as it was. -/
theorem foldl_set_get_other {α : Type} (f g : α → String) (l : List α) (e : EnvVars)
    (k : String) (h : ∀ x ∈ l, f x ≠ k) :
    (l.foldl (fun e x => e.set (f x) (g x)) e).get k = e.get k := by
  induction l generalizing e with
  | nil => rfl
  | cons x xs ih =>
    rw [List.foldl_cons, ih _ (fun y hy => h y (List.mem_cons_of_mem _ hy)), EnvVars.get_set,
      if_neg (h x (List.mem_cons_self _ _))]

/-- A `range` loop of assignments that assigns a key leaves at that key the value of
one of the entries that assign it. -/
theorem foldl_set_get_mem {α : Type} (f g : α → String) (l : List α) (e : EnvVars)
    (k : String) (h : ∃ x ∈ l, f x = k) :
    ∃ x ∈ l, f x = k ∧ (l.foldl (fun e x => e.set (f x) (g x)) e).get k = some (g x) := by
  induction l generalizing e with
  | nil => simp at h
  | cons x xs ih =>
    by_cases hx : ∃ y ∈ xs, f y = k
    · obtain ⟨y, hy, hfy, hget⟩ := ih (e.set (f x) (g x)) hx
      exact ⟨y, List.mem_cons_of_mem _ hy, hfy, hget⟩
    · have hno : ∀ y ∈ xs, f y ≠ k := fun y hy e => hx ⟨y, hy, e⟩
      have hfx : f x = k := by
        obtain ⟨y, hy, hfy⟩ := h
        rcases List.mem_cons.1 hy with rfl | hy
        · exact hfy
        · exact absurd hfy (hno y hy)
      refine ⟨x, List.mem_cons_self _ _, hfx, ?_⟩
      rw [List.foldl_cons, foldl_set_get_other f g xs _ k hno, EnvVars.get_set, if_pos hfx]

theorem append_left_cancel (p a b : String) (h : p ++ a = p ++ b) : a = b := by
  have := congrArg String.data h
  simp only [String.data_append] at this
  exact String.ext (List.append_cancel_left this)

/-- Keys that start with different characters differ. -/
theorem head_ne_of_append (p q a b : String) (c d : Char) (cs ds : List Char)
    (hp : p.data = c :: cs) (hq : q.data = d :: ds) (hcd : c ≠ d) : p ++ a ≠ q ++ b := by
  intro h
  have := congrArg String.data h
  simp only [String.data_append, hp, hq, List.cons_append] at this
  exact hcd (List.cons.inj this).1

/-! ## `handleRunner`: the path to the execution backend -/

/-- The handler calls `Run` only after the request passed every earlier exit and
the app and the route were resolved, and then with the configuration of lines
152-160. -/
theorem run_inv (api : Api) (c : Request) (cfg : Config)
    (h : Call.Run cfg ∈ (handleRunner api c).calls) :
    ∃ base app route, routeBasePathOf (routePathOf c) = some base ∧
      api.GetApp (appNameOf c) = (some app, none) ∧
      api.GetRoute (appNameOf c) base = (some route, none) ∧
      cfg = cfgOf api c app route ∧
      handleRunner api c =
        (match api.Run (cfgOf api c app route) with
        | .error _ =>
          ⟨[.GetApp (appNameOf c), .GetRoute (appNameOf c) base,
              .LogMetricCount ("server.handleRunner." ++ appNameOf c ++ "." ++ "requests") 1,
              .Run (cfgOf api c app route)] ++
              [.LogMetricTime ("server.handleRunner." ++ appNameOf c ++ "." ++ "time")],
            some 500, .simpleError .ErrRunnerRunRoute, [], false⟩
        | .ok result =>
          match copyHeaders route.Headers with
          | (hs, true) =>
            ⟨[.GetApp (appNameOf c), .GetRoute (appNameOf c) base,
              .LogMetricCount ("server.handleRunner." ++ appNameOf c ++ "." ++ "requests") 1,
              .Run (cfgOf api c app route)], none, .empty, hs, true⟩
          | (hs, false) =>
            if result.Status = "success" then
              ⟨[.GetApp (appNameOf c), .GetRoute (appNameOf c) base,
                .LogMetricCount ("server.handleRunner." ++ appNameOf c ++ "." ++ "requests") 1,
                .Run (cfgOf api c app route)] ++
                [.LogMetricCount ("server.handleRunner." ++ appNameOf c ++ "." ++ "succeeded") 1,
                 .LogMetricTime ("server.handleRunner." ++ appNameOf c ++ "." ++ "time")],
                some 200, .data result.Stdout, hs, false⟩
            else
              ⟨[.GetApp (appNameOf c), .GetRoute (appNameOf c) base,
                .LogMetricCount ("server.handleRunner." ++ appNameOf c ++ "." ++ "requests") 1,
                .Run (cfgOf api c app route)] ++
                [.LogMetricCount ("server.handleRunner." ++ appNameOf c ++ "." ++ "error") 1,
                 .LogMetricTime ("server.handleRunner." ++ appNameOf c ++ "." ++ "time")],
                some 500, .empty, hs, false⟩) := by
  unfold handleRunner at h ⊢
  split at h
  · simp at h
  · rename_i h1
    simp only at h
    split at h
    · simp at h
    · rename_i h2
      split at h
      · simp at h
      · rename_i h3
        split at h
        · simp at h
        · rename_i base hbase
          split at h
          · rename_i app happ
            split at h
            · rename_i route hroute
              refine ⟨base, app, route, hbase, happ, hroute, ?_, ?_⟩
              · split at h
                · simpa [cfgOf] using h
                · split at h
                  · simpa [cfgOf] using h
                  · split at h <;> simpa [cfgOf] using h
              · simp only [h1, h2, h3, hbase, happ, hroute, if_false, cfgOf]
                rfl
            · simp at h
          · simp at h

/-- The same, for a request whose app and route are known. -/
theorem run_cfg (api : Api) (c : Request) (cfg : Config) (app : App) (route : Route)
    (base : String)
    (hbase : routeBasePathOf (routePathOf c) = some base)
    (happ : api.GetApp (appNameOf c) = (some app, none))
    (hroute : api.GetRoute (appNameOf c) base = (some route, none))
    (hrun : Call.Run cfg ∈ (handleRunner api c).calls) :
    cfg = cfgOf api c app route := by
  obtain ⟨base1, app1, route1, hb, ha, hr, hcfg, _⟩ := run_inv api c cfg hrun
  rw [hbase] at hb
  cases hb
  rw [happ] at ha
  cases ha
  rw [hroute] at hr
  cases hr
  exact hcfg

/-- In the built environment a `CONFIG_` key that the route configuration assigns
holds a value of the route configuration. -/
theorem envVars_config (tbl : Char → Char) (c : Request) (app : App) (route : Route)
    (payload : String) (params : Params × Bool) (K : String)
    (hK : ∃ kv ∈ route.Config, strings.ToUpper tbl kv.1 = K) :
    ∃ kv ∈ route.Config, strings.ToUpper tbl kv.1 = K ∧
      (envVars tbl c app route payload params).get ("CONFIG_" ++ K) = some kv.2 := by
  have hK1 : ∃ kv ∈ route.Config, "CONFIG_" ++ strings.ToUpper tbl kv.1 = "CONFIG_" ++ K := by
    obtain ⟨kv, hkv, h⟩ := hK
    exact ⟨kv, hkv, by rw [h]⟩
  obtain ⟨kv, hkv, hkey, hget⟩ := foldl_set_get_mem
    (fun kv : String × String => "CONFIG_" ++ strings.ToUpper tbl kv.1) (fun kv => kv.2)
    route.Config
    (app.Config.foldl (fun e kv => e.set ("CONFIG_" ++ strings.ToUpper tbl kv.1) kv.2)
      [("METHOD", c.Method), ("ROUTE", route.Path), ("PAYLOAD", payload), ("REQUEST_URL", c.URL)])
    ("CONFIG_" ++ K) hK1
  refine ⟨kv, hkv, append_left_cancel _ _ _ hkey, ?_⟩
  unfold envVars
  simp only
  rw [foldl_set_get_other]
  · split
    · rw [foldl_set_get_other]
      · exact hget
      · intro p _
        exact head_ne_of_append _ _ _ _ 'P' 'C' _ _ rfl rfl (by decide)
    · exact hget
  · intro p _
    exact head_ne_of_append _ _ _ _ 'H' 'C' _ _ rfl rfl (by decide)

/-- In the built environment a `HEADER_` key holds the joined values of a request
header with that upper-cased name. -/
theorem envVars_header (tbl : Char → Char) (c : Request) (app : App) (route : Route)
    (payload : String) (params : Params × Bool) (K : String)
    (hK : ∃ hv ∈ c.Header, strings.ToUpper tbl hv.1 = K) :
    ∃ hv ∈ c.Header, strings.ToUpper tbl hv.1 = K ∧
      (envVars tbl c app route payload params).get ("HEADER_" ++ K)
        = some (strings.Join hv.2 " ") := by
  have hK1 : ∃ hv ∈ c.Header, "HEADER_" ++ strings.ToUpper tbl hv.1 = "HEADER_" ++ K := by
    obtain ⟨hv, hhv, h⟩ := hK
    exact ⟨hv, hhv, by rw [h]⟩
  unfold envVars
  simp only
  obtain ⟨hv, hhv, hkey, hget⟩ := foldl_set_get_mem
    (fun hv : String × List String => "HEADER_" ++ strings.ToUpper tbl hv.1)
    (fun hv => strings.Join hv.2 " ") c.Header _ ("HEADER_" ++ K) hK1
  exact ⟨hv, hhv, append_left_cancel _ _ _ hkey, hget⟩

/-- The built-in keys of the environment are never overwritten: whatever the
configurations, parameters and headers are, `METHOD`, `ROUTE`, `PAYLOAD` and
`REQUEST_URL` hold the request method, the route pattern, the payload and the URL. -/
theorem envVars_builtin (tbl : Char → Char) (c : Request) (app : App) (route : Route)
    (payload : String) (params : Params × Bool) :
    (envVars tbl c app route payload params).get "METHOD" = some c.Method ∧
    (envVars tbl c app route payload params).get "ROUTE" = some route.Path ∧
    (envVars tbl c app route payload params).get "PAYLOAD" = some payload ∧
    (envVars tbl c app route payload params).get "REQUEST_URL" = some c.URL := by
  have key : ∀ k v : String, (∀ a : String, "CONFIG_" ++ a ≠ k) →
      (∀ a : String, "PARAM_" ++ a ≠ k) → (∀ a : String, "HEADER_" ++ a ≠ k) →
      EnvVars.get [("METHOD", c.Method), ("ROUTE", route.Path), ("PAYLOAD", payload),
        ("REQUEST_URL", c.URL)] k = some v →
      (envVars tbl c app route payload params).get k = some v := by
    intro k v hC hP hH hget
    unfold envVars
    simp only
    rw [foldl_set_get_other _ _ _ _ _ (fun hv _ => hH _)]
    have hcfg : ∀ (l1 l2 : List (String × String)),
        EnvVars.get (l2.foldl (fun e kv => e.set ("CONFIG_" ++ strings.ToUpper tbl kv.1) kv.2)
          (l1.foldl (fun e kv => e.set ("CONFIG_" ++ strings.ToUpper tbl kv.1) kv.2)
            [("METHOD", c.Method), ("ROUTE", route.Path), ("PAYLOAD", payload),
              ("REQUEST_URL", c.URL)])) k = some v := by
      intro l1 l2
      rw [foldl_set_get_other _ _ _ _ _ (fun kv _ => hC _),
        foldl_set_get_other _ _ _ _ _ (fun kv _ => hC _)]
      exact hget
    split
    · rw [foldl_set_get_other _ _ _ _ _ (fun p _ => hP _)]
      exact hcfg _ _
    · exact hcfg _ _
  have ne : ∀ p k : String, (∀ a : List Char, p.data ++ a ≠ k.data) → ∀ a : String, p ++ a ≠ k := by
    intro p k h a e
    exact h a.data (by rw [← String.data_append, e])
  refine ⟨?_, ?_, ?_, ?_⟩
  · exact key "METHOD" _ (ne _ _ (by intro a; simp)) (ne _ _ (by intro a; simp))
      (ne _ _ (by intro a; simp)) (by simp [EnvVars.get])
  · exact key "ROUTE" _ (ne _ _ (by intro a; simp)) (ne _ _ (by intro a; simp))
      (ne _ _ (by intro a; simp)) (by simp [EnvVars.get])
  · exact key "PAYLOAD" _ (ne _ _ (by intro a; simp)) (ne _ _ (by intro a; simp))
      (ne _ _ (by intro a; simp)) (by simp [EnvVars.get])
  · exact key "REQUEST_URL" _ (ne _ _ (by intro a; simp)) (ne _ _ (by intro a; simp))
      (ne _ _ (by intro a; simp)) (by simp [EnvVars.get])

end server

/-! ## The base path of a route -/

namespace strings

/-- A text that holds the separator has at least two pieces. -/
theorem splitChars_of_mem (sep : Char) (l : List Char) (h : sep ∈ l) :
    ∃ a b rest, splitChars sep l = a :: b :: rest := by
  induction l with
  | nil => simp at h
  | cons c cs ih =>
    by_cases hc : c = sep
    · cases hsp : splitChars sep cs with
      | nil =>
        cases cs with
        | nil => simp [splitChars] at hsp
        | cons d ds =>
          simp only [splitChars] at hsp
          split at hsp
          · simp at hsp
          · split at hsp <;> simp at hsp
      | cons p ps => exact ⟨[], p, ps, by simp [splitChars, hc, hsp]⟩
    · have hcs : sep ∈ cs := by
        rcases List.mem_cons.1 h with e | e
        · exact absurd e.symm hc
        · exact e
      obtain ⟨a, b, rest, hsp⟩ := ih hcs
      exact ⟨c :: a, b, rest, by simp [splitChars, hc, hsp]⟩

end strings

namespace server

/-- Line 90 does not panic on a route path that holds a slash. -/
theorem routeBasePathOf_of_slash (routePath : String) (h : '/' ∈ routePath.data) :
    ∃ base, routeBasePathOf routePath = some base := by
  obtain ⟨a, b, rest, hsp⟩ := strings.splitChars_of_mem '/' routePath.data h
  exact ⟨"/" ++ ⟨b⟩, by simp [routeBasePathOf, strings.Split, hsp]⟩

end server

/-! ## `handleRunner`: environment, responses and metrics -/

namespace server

/-- C1.  Route configuration wins over app configuration.  Whenever the handler
hands a configuration `cfg` to the execution backend for the app and route the
datastore returned, and the route configuration has a key that upper-cases to `K`,
then `cfg.Env` maps `CONFIG_K` to the value of a route-configuration key that
upper-cases to `K`; so it is the route's value `v` when all such keys carry `v`.
The app configuration (any, also one with a key that upper-cases to `K`) and the
`PARAM_` and `HEADER_` entries never decide it. -/
theorem route_config_wins (api : Api) (c : Request) (cfg : Config) (app : App) (route : Route)
    (base K : String)
    (hbase : routeBasePathOf (routePathOf c) = some base)
    (happ : api.GetApp (appNameOf c) = (some app, none))
    (hroute : api.GetRoute (appNameOf c) base = (some route, none))
    (hrun : Call.Run cfg ∈ (handleRunner api c).calls)
    (hK : ∃ kv ∈ route.Config, strings.ToUpper api.caseTable kv.1 = K) :
    (∃ kv ∈ route.Config, strings.ToUpper api.caseTable kv.1 = K ∧
        cfg.Env.get ("CONFIG_" ++ K) = some kv.2) ∧
      ∀ v, (∀ kv ∈ route.Config, strings.ToUpper api.caseTable kv.1 = K → kv.2 = v) →
        cfg.Env.get ("CONFIG_" ++ K) = some v := by
  rw [run_cfg api c cfg app route base hbase happ hroute hrun]
  obtain ⟨kv, hkv, hup, hget⟩ := envVars_config api.caseTable c app route (payloadOf c)
    (getRouteParams api.tree route.Path (routePathOf c)) K hK
  refine ⟨⟨kv, hkv, hup, hget⟩, fun v hv => ?_⟩
  rw [← hv kv hkv hup]
  exact hget

/-- C1 at app configuration `{"A": "1"}` and route configuration `{"A": "2"}`: the
backend is called, and with `CONFIG_A = "2"`. -/
theorem route_config_wins_witness :
    demoApp.Config = [("A", "1")] ∧ demoRoute.Config = [("A", "2")] ∧
      Call.Run (cfgOf (demoApi (some demoRoute) (.ok ⟨"success", "hi"⟩)) demoRequest demoApp
        demoRoute) ∈ (handleRunner (demoApi (some demoRoute) (.ok ⟨"success", "hi"⟩))
        demoRequest).calls ∧
      (cfgOf (demoApi (some demoRoute) (.ok ⟨"success", "hi"⟩)) demoRequest demoApp
        demoRoute).Env.get "CONFIG_A" = some "2" :=
  ⟨rfl, rfl, by decide,
    (route_config_wins (demoApi (some demoRoute) (.ok ⟨"success", "hi"⟩)) demoRequest _
      demoApp demoRoute "/hello" "A" (by decide) (by decide) (by decide) (by decide)
      ⟨("A", "2"), by decide, by decide⟩).2 "2" (by decide)⟩

/-- C2, as stated, fails: for the header `X-Foo` with values `["a", "b"]` the
environment handed to the backend has no key `HEADER_X_FOO`; the joined values are
stored under `HEADER_X-FOO`, the hyphen kept. -/
theorem header_hyphen_is_kept :
    Call.Run (cfgOf (demoApi (some demoRoute) (.ok ⟨"success", "hi"⟩)) demoRequest demoApp
        demoRoute) ∈ (handleRunner (demoApi (some demoRoute) (.ok ⟨"success", "hi"⟩))
        demoRequest).calls ∧
      demoRequest.Header = [("X-Foo", ["a", "b"])] ∧
      (cfgOf (demoApi (some demoRoute) (.ok ⟨"success", "hi"⟩)) demoRequest demoApp
        demoRoute).Env.get "HEADER_X_FOO" = none ∧
      (cfgOf (demoApi (some demoRoute) (.ok ⟨"success", "hi"⟩)) demoRequest demoApp
        demoRoute).Env.get "HEADER_X-FOO" = some "a b" := by
  decide

/-- C2, amended.  Whenever the handler hands a configuration `cfg` to the execution
backend and the request has a header named `h`, `cfg.Env` has the key `HEADER_`
followed by `h` upper-cased (and not changed otherwise), and it holds the values,
joined by single spaces, of a request header whose name upper-cases to the same
text; so it holds the joined values `vs` of `h` when all such headers carry `vs`. -/
theorem header_folding (api : Api) (c : Request) (cfg : Config) (h : String)
    (vs : List String)
    (hrun : Call.Run cfg ∈ (handleRunner api c).calls)
    (hmem : (h, vs) ∈ c.Header) :
    (∃ hv ∈ c.Header, strings.ToUpper api.caseTable hv.1 = strings.ToUpper api.caseTable h ∧
        cfg.Env.get ("HEADER_" ++ strings.ToUpper api.caseTable h)
          = some (strings.Join hv.2 " ")) ∧
      ((∀ hv ∈ c.Header, strings.ToUpper api.caseTable hv.1 = strings.ToUpper api.caseTable h →
          hv.2 = vs) →
        cfg.Env.get ("HEADER_" ++ strings.ToUpper api.caseTable h)
          = some (strings.Join vs " ")) := by
  obtain ⟨base, app, route, _, _, _, hcfg, _⟩ := run_inv api c cfg hrun
  subst hcfg
  obtain ⟨hv, hhv, hup, hget⟩ := envVars_header api.caseTable c app route (payloadOf c)
    (getRouteParams api.tree route.Path (routePathOf c)) (strings.ToUpper api.caseTable h)
    ⟨(h, vs), hmem, rfl⟩
  refine ⟨⟨hv, hhv, hup, hget⟩, fun hall => ?_⟩
  rw [← hall hv hhv hup]
  exact hget

/-- C2, amended, at the header `X-Foo` with values `["a", "b"]`: the backend gets
`HEADER_X-FOO = "a b"`. -/
theorem header_folding_witness :
    (cfgOf (demoApi (some demoRoute) (.ok ⟨"success", "hi"⟩)) demoRequest demoApp
        demoRoute).Env.get ("HEADER_" ++ strings.ToUpper (fun r => r) "X-Foo")
      = some (strings.Join ["a", "b"] " ") :=
  (header_folding (demoApi (some demoRoute) (.ok ⟨"success", "hi"⟩)) demoRequest _
    "X-Foo" ["a", "b"] (by decide) (by decide)).2 (by decide)

/-- The environment and the success response of a resolved request.  Whenever the
handler hands `cfg` to the backend for the app and route the datastore returned, `cfg.Env` has `METHOD` equal
to the request method, `ROUTE` equal to the stored route pattern and `PAYLOAD` equal
to the payload, whatever the configurations, parameters and headers are; and if
the backend returns the status `success` and no configured response header has an
empty value list, the response is 200 with the captured output as its body. -/
theorem runner_env_and_success (api : Api) (c : Request) (cfg : Config) (app : App)
    (route : Route) (base : String)
    (hbase : routeBasePathOf (routePathOf c) = some base)
    (happ : api.GetApp (appNameOf c) = (some app, none))
    (hroute : api.GetRoute (appNameOf c) base = (some route, none))
    (hrun : Call.Run cfg ∈ (handleRunner api c).calls) :
    cfg.Env.get "METHOD" = some c.Method ∧
      cfg.Env.get "ROUTE" = some route.Path ∧
      cfg.Env.get "PAYLOAD" = some (payloadOf c) ∧
      ∀ result, api.Run cfg = .ok result → result.Status = "success" →
        (copyHeaders route.Headers).2 = false →
        (handleRunner api c).status = some 200 ∧
          (handleRunner api c).body = .data result.Stdout := by
  obtain ⟨base1, app1, route1, hb, ha, hr, hcfg, hnf⟩ := run_inv api c cfg hrun
  rw [hbase] at hb
  cases hb
  rw [happ] at ha
  cases ha
  rw [hroute] at hr
  cases hr
  subst hcfg
  obtain ⟨h1, h2, h3, _⟩ := envVars_builtin api.caseTable c app route (payloadOf c)
    (getRouteParams api.tree route.Path (routePathOf c))
  refine ⟨h1, h2, h3, fun result hres hstatus hhdr => ?_⟩
  rw [hnf, hres]
  simp only
  split
  · rename_i hs hcopy
    rw [hcopy] at hhdr
    simp at hhdr
  · simp [hstatus]

/-- C3 fails on a route with a response header that has no value: for the request
`GET /r/demo/hello`, the route `/hello` configured with the response header
`X-Empty` and an empty value list, and a backend that returns `success` with output
`hi`, the environment is as claimed, but the handler panics at `v[0]` and writes
neither the status 200 nor the body `hi`. -/
theorem success_lost_on_empty_header :
    (cfgOf (demoApi (some { demoRoute with Headers := [("X-Empty", [])] })
        (.ok ⟨"success", "hi"⟩)) demoRequest demoApp
        { demoRoute with Headers := [("X-Empty", [])] }).Env.get "METHOD" = some "GET" ∧
      (handleRunner (demoApi (some { demoRoute with Headers := [("X-Empty", [])] })
        (.ok ⟨"success", "hi"⟩)) demoRequest).status ≠ some 200 ∧
      (handleRunner (demoApi (some { demoRoute with Headers := [("X-Empty", [])] })
        (.ok ⟨"success", "hi"⟩)) demoRequest).body ≠ .data "hi" ∧
      (handleRunner (demoApi (some { demoRoute with Headers := [("X-Empty", [])] })
        (.ok ⟨"success", "hi"⟩)) demoRequest).panicked = true := by
  decide

/-- C4, as stated, fails: the request `GET /r/ghost/hello?payload=x` names the app
`ghost`, which the datastore does not hold, but its payload `x` is not JSON: the
handler answers 400 at the payload check and never asks the datastore.  And a
request for `ghost` whose route path `hello` holds no slash ends in the
index-out-of-range panic of line 90 before any response is written. -/
theorem unknown_app_invalid_payload_is_400 :
    appNameOf { demoRequest with ParamApp := "ghost", QueryPayload := ["x"] } = "ghost" ∧
      (demoApi (some demoRoute) (.ok ⟨"success", "hi"⟩)).GetApp "ghost" = (none, none) ∧
      payloadOf { demoRequest with ParamApp := "ghost", QueryPayload := ["x"] } = "x" ∧
      (handleRunner (demoApi (some demoRoute) (.ok ⟨"success", "hi"⟩))
        { demoRequest with ParamApp := "ghost", QueryPayload := ["x"] }).status = some 400 ∧
      (handleRunner (demoApi (some demoRoute) (.ok ⟨"success", "hi"⟩))
        { demoRequest with ParamApp := "ghost", QueryPayload := ["x"] }).calls = [] ∧
      (handleRunner (demoApi (some demoRoute) (.ok ⟨"success", "hi"⟩))
        { demoRequest with ParamApp := "ghost", ParamRoute := "hello" }).status = none ∧
      (handleRunner (demoApi (some demoRoute) (.ok ⟨"success", "hi"⟩))
        { demoRequest with ParamApp := "ghost", ParamRoute := "hello" }).panicked = true := by
  decide

/-- C4, amended.  For every request that names an app (its app name, taken from
the path parameter or else from the context, is not empty) which the datastore
does not hold (`GetApp` of that name returns no app), whose payload is empty or is
decoded by `json.Unmarshal` into a map, and whose route path holds a slash: the
response status is 404, the handler makes no call but that one lookup (none at all
when the path is under `/v1`), so the execution backend is not run and no metric is
emitted. -/
theorem unknown_app_not_found (api : Api) (c : Request)
    (hname : appNameOf c ≠ "")
    (hnone : (api.GetApp (appNameOf c)).1 = none)
    (hpayload : (payloadOf c).length = 0 ∨
      json.Unmarshal api.numbersFit (payloadOf c) = true)
    (hslash : '/' ∈ (routePathOf c).data) :
    (handleRunner api c).status = some 404 ∧
      (handleRunner api c).calls =
        (if strings.HasPrefix c.Path "/v1" then [] else [Call.GetApp (appNameOf c)]) ∧
      (∀ cfg, Call.Run cfg ∉ (handleRunner api c).calls) ∧
      (∀ name count, Call.LogMetricCount name count ∉ (handleRunner api c).calls) ∧
      (∀ name, Call.LogMetricTime name ∉ (handleRunner api c).calls) := by
  have key : (handleRunner api c).status = some 404 ∧
      (handleRunner api c).calls =
        (if strings.HasPrefix c.Path "/v1" then [] else [Call.GetApp (appNameOf c)]) := by
    unfold handleRunner
    by_cases h1 : strings.HasPrefix c.Path "/v1" = true
    · simp [h1]
    · have h2 : ¬ ((payloadOf c).length > 0 ∧
          json.Unmarshal api.numbersFit (payloadOf c) = false) := by
        rintro ⟨hlen, hbad⟩
        rcases hpayload with h | h
        · omega
        · rw [h] at hbad
          exact absurd hbad (by simp)
      obtain ⟨base, hbase⟩ := routeBasePathOf_of_slash (routePathOf c) hslash
      rw [if_neg h1, if_neg h1]
      simp only
      rw [if_neg h2, if_neg hname]
      simp only [hbase]
      split
      · rename_i app happ
        rw [happ] at hnone
        simp at hnone
      · simp
  refine ⟨key.1, key.2, ?_, ?_, ?_⟩ <;> (rw [key.2]; split <;> simp)

/-- C4, amended, at the request `GET /r/ghost/hello` without payload, where the
datastore does not hold `ghost`: the status is 404 and the only call is the
lookup. -/
theorem unknown_app_not_found_witness :
    (handleRunner (demoApi (some demoRoute) (.ok ⟨"success", "hi"⟩))
        { demoRequest with ParamApp := "ghost" }).status = some 404 ∧
      (handleRunner (demoApi (some demoRoute) (.ok ⟨"success", "hi"⟩))
        { demoRequest with ParamApp := "ghost" }).calls = [Call.GetApp "ghost"] :=
  have h := unknown_app_not_found (demoApi (some demoRoute) (.ok ⟨"success", "hi"⟩))
    { demoRequest with ParamApp := "ghost" } (by decide) (by decide) (by decide) (by decide)
  ⟨h.1, h.2.1⟩

/-- C5 fails: for the existing app `demo` and a route the datastore does not hold
(`GetRoute` returns no route and no error) the handler answers 500 with
`ErrRoutesList`, not 404; it makes the two lookups and nothing else. -/
theorem unknown_route_is_500 :
    (demoApi none (.ok ⟨"success", "hi"⟩)).GetApp "demo" = (some demoApp, none) ∧
      (demoApi none (.ok ⟨"success", "hi"⟩)).GetRoute "demo" "/hello" = (none, none) ∧
      (handleRunner (demoApi none (.ok ⟨"success", "hi"⟩)) demoRequest).status = some 500 ∧
      (handleRunner (demoApi none (.ok ⟨"success", "hi"⟩)) demoRequest).body
        = .simpleError .ErrRoutesList ∧
      (handleRunner (demoApi none (.ok ⟨"success", "hi"⟩)) demoRequest).calls
        = [.GetApp "demo", .GetRoute "demo" "/hello"] := by
  decide

/-- C6 fails when `Run` returns an error: for a backend whose `Run` returns the error
`timeout` the handler answers 500 and records the timing metric once, but it never
increments the app's error counter: its calls are the two lookups, the request
counter, the run and the timing record. -/
theorem run_error_counts_no_error :
    (handleRunner (demoApi (some demoRoute) (.error "timeout")) demoRequest).status = some 500 ∧
      (handleRunner (demoApi (some demoRoute) (.error "timeout")) demoRequest).calls
        = [.GetApp "demo", .GetRoute "demo" "/hello",
           .LogMetricCount "server.handleRunner.demo.requests" 1,
           .Run (cfgOf (demoApi (some demoRoute) (.error "timeout")) demoRequest demoApp
             demoRoute),
           .LogMetricTime "server.handleRunner.demo.time"] ∧
      Call.LogMetricCount "server.handleRunner.demo.error" 1 ∉
        (handleRunner (demoApi (some demoRoute) (.error "timeout")) demoRequest).calls := by
  decide

/-- C7, as stated, fails: the payload `null` is not empty and is not a JSON object,
yet the handler accepts it: for `GET /r/demo/hello?payload=null` it goes on to the
datastore and the backend and answers 200. -/
theorem null_payload_is_accepted :
    payloadOf { demoRequest with QueryPayload := ["null"] } = "null" ∧
      json.firstNonSpace (payloadOf { demoRequest with QueryPayload := ["null"] }).data
        ≠ some '{' ∧
      (handleRunner (demoApi (some demoRoute) (.ok ⟨"success", "hi"⟩))
        { demoRequest with QueryPayload := ["null"] }).status = some 200 ∧
      Call.GetApp "demo" ∈ (handleRunner (demoApi (some demoRoute) (.ok ⟨"success", "hi"⟩))
        { demoRequest with QueryPayload := ["null"] }).calls := by
  decide

/-- C7, amended.  For a request whose path is not under `/v1` and whose payload is
not empty: if `json.Unmarshal` cannot decode the payload into a map, as is the case
when the payload is not valid JSON or its top-level value is neither an object nor
the literal `null`, the response status is 400 with `ErrInvalidJSON` and the
handler makes no call at all (no datastore lookup, no execution, no metric);
conversely, if the handler does not answer with `ErrInvalidJSON`, the payload is
syntactically valid JSON whose first character after white space is `{` (an object)
or `n` (the literal `null`). -/
theorem payload_validation (api : Api) (c : Request)
    (hpath : strings.HasPrefix c.Path "/v1" = false)
    (hpayload : (payloadOf c).length > 0) :
    ((json.Unmarshal api.numbersFit (payloadOf c) = false ∨
          json.checkValid (payloadOf c).data = false ∨
          (json.firstNonSpace (payloadOf c).data ≠ some '{' ∧
            json.firstNonSpace (payloadOf c).data ≠ some 'n')) →
        (handleRunner api c).status = some 400 ∧
        (handleRunner api c).body = .simpleError .ErrInvalidJSON ∧
        (handleRunner api c).calls = []) ∧
      ((handleRunner api c).body ≠ .simpleError .ErrInvalidJSON →
        json.checkValid (payloadOf c).data = true ∧
        (json.firstNonSpace (payloadOf c).data = some '{' ∨
          json.firstNonSpace (payloadOf c).data = some 'n')) := by
  have hshape : json.Unmarshal api.numbersFit (payloadOf c) = true →
      json.checkValid (payloadOf c).data = true ∧
        (json.firstNonSpace (payloadOf c).data = some '{' ∨
          json.firstNonSpace (payloadOf c).data = some 'n') := by
    intro hok
    unfold json.Unmarshal at hok
    simp only [Bool.and_eq_true] at hok
    refine ⟨hok.1, ?_⟩
    have h2 := hok.2
    split at h2
    · rename_i heq
      exact Or.inl heq
    · rename_i heq
      exact Or.inr heq
    · simp at h2
  have hreject : json.Unmarshal api.numbersFit (payloadOf c) = false →
      (handleRunner api c).status = some 400 ∧
        (handleRunner api c).body = .simpleError .ErrInvalidJSON ∧
        (handleRunner api c).calls = [] := by
    intro hbad
    unfold handleRunner
    simp [hpath, hpayload, hbad]
  constructor
  · intro h
    apply hreject
    rcases h with h | h | h
    · exact h
    · by_contra hok
      rw [(hshape (by simpa using hok)).1] at h
      exact absurd h (by simp)
    · by_contra hok
      rcases (hshape (by simpa using hok)).2 with e | e
      · exact h.1 e
      · exact h.2 e
  · intro hbody
    apply hshape
    by_contra hbad
    exact hbody (hreject (by simpa using hbad)).2.1

/-- C7, amended, at the payloads `[1]` (valid JSON, not an object: rejected with 400
before any call) and the object with the one member `"a": 1` (accepted). -/
theorem payload_validation_witness :
    ((handleRunner (demoApi (some demoRoute) (.ok ⟨"success", "hi"⟩))
        { demoRequest with QueryPayload := ["[1]"] }).status = some 400 ∧
      (handleRunner (demoApi (some demoRoute) (.ok ⟨"success", "hi"⟩))
        { demoRequest with QueryPayload := ["[1]"] }).body = .simpleError .ErrInvalidJSON ∧
      (handleRunner (demoApi (some demoRoute) (.ok ⟨"success", "hi"⟩))
        { demoRequest with QueryPayload := ["[1]"] }).calls = []) ∧
      json.checkValid "\x7b\"a\": 1\x7d".data = true :=
  ⟨(payload_validation (demoApi (some demoRoute) (.ok ⟨"success", "hi"⟩))
      { demoRequest with QueryPayload := ["[1]"] } (by decide) (by decide)).1
      (Or.inr (Or.inr (by decide))),
    ((payload_validation (demoApi (some demoRoute) (.ok ⟨"success", "hi"⟩))
      { demoRequest with QueryPayload := ["\x7b\"a\": 1\x7d"] } (by decide) (by decide)).2
      (by decide)).1⟩

/-- C9 fails: the copy of the response headers reads `v[0]` of every value list.  For
a route whose header `X-Empty` has an empty value list the handler panics at that
index, after the backend ran, and writes no response; for a header with the values
`["a", "b"]` only `a` reaches the response. -/
theorem header_copy_reads_first_value :
    (handleRunner (demoApi (some { demoRoute with Headers := [("X-Empty", [])] })
        (.ok ⟨"success", "hi"⟩)) demoRequest).panicked = true ∧
      (handleRunner (demoApi (some { demoRoute with Headers := [("X-Empty", [])] })
        (.ok ⟨"success", "hi"⟩)) demoRequest).status = none ∧
      (handleRunner (demoApi (some { demoRoute with Headers := [("X-Multi", ["a", "b"])] })
        (.ok ⟨"success", "hi"⟩)) demoRequest).headers = [("X-Multi", "a")] := by
  decide

end server

/-! ## Splitting and joining at a separator -/

namespace strings

theorem splitChars_ne_nil (sep : Char) (l : List Char) : splitChars sep l ≠ [] := by
  cases l with
  | nil => simp [splitChars]
  | cons c cs =>
    simp only [splitChars]
    split
    · simp
    · split <;> simp

/-- A text without the separator is one piece. -/
theorem splitChars_of_not_mem (sep : Char) (a : List Char) (h : sep ∉ a) :
    splitChars sep a = [a] := by
  induction a with
  | nil => rfl
  | cons c cs ih =>
    have hc : c ≠ sep := fun e => h (e ▸ List.mem_cons_self _ _)
    have hcs : sep ∉ cs := fun e => h (List.mem_cons_of_mem _ e)
    simp [splitChars, hc, ih hcs]

/-- The first piece ends at the first separator. -/
theorem splitChars_append (sep : Char) (a b : List Char) (h : sep ∉ a) :
    splitChars sep (a ++ sep :: b) = a :: splitChars sep b := by
  induction a with
  | nil => simp [splitChars]
  | cons c cs ih =>
    have hc : c ≠ sep := fun e => h (e ▸ List.mem_cons_self _ _)
    have hcs : sep ∉ cs := fun e => h (List.mem_cons_of_mem _ e)
    simp [splitChars, hc, ih hcs]

/-- No piece holds the separator. -/
theorem not_mem_of_mem_splitChars (sep : Char) (l : List Char) :
    ∀ piece ∈ splitChars sep l, sep ∉ piece := by
  induction l with
  | nil => simp [splitChars]
  | cons c cs ih =>
    intro piece hp
    simp only [splitChars] at hp
    split at hp
    · rcases List.mem_cons.1 hp with rfl | hp
      · simp
      · exact ih piece hp
    · rename_i hc
      split at hp
      · rename_i hnil
        exact absurd hnil (splitChars_ne_nil sep cs)
      · rename_i p ps heq
        rcases List.mem_cons.1 hp with rfl | hp
        · intro hmem
          rcases List.mem_cons.1 hmem with e | e
          · exact hc e.symm
          · exact ih p (heq ▸ List.mem_cons_self _ _) e
        · exact ih piece (heq ▸ List.mem_cons_of_mem _ hp)

/-- Joining the pieces gives the text back. -/
theorem joinChars_splitChars (sep : Char) (l : List Char) :
    joinChars sep (splitChars sep l) = l := by
  induction l with
  | nil => rfl
  | cons c cs ih =>
    simp only [splitChars]
    split
    · rename_i hc
      cases hsp : splitChars sep cs with
      | nil => exact absurd hsp (splitChars_ne_nil sep cs)
      | cons p ps =>
        rw [hsp] at ih
        simp [joinChars, ih, hc]
    · split
      · rename_i hnil
        exact absurd hnil (splitChars_ne_nil sep cs)
      · rename_i p ps heq
        rw [heq] at ih
        cases ps with
        | nil =>
          simp only [joinChars] at ih ⊢
          rw [ih]
        | cons q qs =>
          simp only [joinChars] at ih ⊢
          rw [← ih]
          rfl

/-- `strings.Join` on the characters. -/
theorem Join_data (sep : Char) (l : List String) :
    (Join l ⟨[sep]⟩).data = joinChars sep (l.map String.data) := by
  induction l with
  | nil => rfl
  | cons a l ih =>
    cases l with
    | nil => rfl
    | cons b l =>
      simp only [Join, String.data_append, List.map_cons, joinChars] at ih ⊢
      rw [ih]
      simp

theorem map_mk_map_data (l : List String) : (l.map String.data).map String.mk = l := by
  induction l with
  | nil => rfl
  | cons a l ih => simp [ih]

theorem map_data_map_mk (l : List (List Char)) : (l.map String.mk).map String.data = l := by
  induction l with
  | nil => rfl
  | cons a l ih => simp [ih]

/-- Joining the pieces of `strings.Split` gives the string back. -/
theorem Join_Split (s : String) : Join (Split s '/') "/" = s := by
  apply String.ext
  have h := Join_data '/' (Split s '/')
  have e : (⟨['/']⟩ : String) = "/" := rfl
  rw [e] at h
  rw [h, Split, map_data_map_mk, joinChars_splitChars]

end strings

/-! ## `getRouteParams` over the trie of the specification -/

namespace strings

/-- Splitting a joined text gives the pieces back when no piece holds the separator. -/
theorem splitChars_joinChars (sep : Char) (l : List (List Char)) (hne : l ≠ [])
    (h : ∀ x ∈ l, sep ∉ x) : splitChars sep (joinChars sep l) = l := by
  induction l with
  | nil => exact absurd rfl hne
  | cons a l ih =>
    cases l with
    | nil => exact splitChars_of_not_mem sep a (h a (List.mem_cons_self _ _))
    | cons b l =>
      simp only [joinChars]
      rw [splitChars_append sep a _ (h a (List.mem_cons_self _ _)),
        ih (by simp) (fun x hx => h x (List.mem_cons_of_mem _ hx))]

theorem joinChars_cons (sep : Char) (a : List Char) (l : List (List Char)) (hne : l ≠ []) :
    joinChars sep (a :: l) = a ++ sep :: joinChars sep l := by
  cases l with
  | nil => exact absurd rfl hne
  | cons b l => rfl

end strings

namespace server

theorem parse_render (s : Segment) (h : s.WellFormed) : Segment.parse s.render = s := by
  cases s with
  | literal text =>
    obtain ⟨_, h1, h2⟩ := h
    unfold Segment.parse Segment.render
    split
    · rename_i name heq
      simp only at heq
      rw [heq] at h1
      simp at h1
    · rename_i name heq
      simp only at heq
      rw [heq] at h2
      simp at h2
    · rfl
  | named name => rfl
  | wildcard name => rfl

theorem render_no_slash (s : Segment) (h : s.WellFormed) : '/' ∉ s.render.data := by
  cases s with
  | literal text => exact h.1
  | named name =>
    have h1 : '/' ∉ name.data := h
    simp [Segment.render, h1]
  | wildcard name =>
    have h1 : '/' ∉ name.data := h
    simp [Segment.render, h1]

/-- Reading a written pattern gives its segments back. -/
theorem parse_renderPattern (pattern : List Segment) (hwf : WellFormed pattern) :
    (strings.Split (renderPattern pattern) '/').map Segment.parse = pattern := by
  obtain ⟨hne, _, hseg⟩ := hwf
  unfold strings.Split renderPattern
  have e : ("/" : String) = ⟨['/']⟩ := rfl
  rw [e, strings.Join_data, strings.splitChars_joinChars, strings.map_mk_map_data]
  · rw [List.map_map]
    have : ∀ l : List Segment, (∀ s ∈ l, s.WellFormed) →
        l.map (Segment.parse ∘ Segment.render) = l := by
      intro l hl
      induction l with
      | nil => rfl
      | cons s l ih =>
        rw [List.map_cons, ih (fun x hx => hl x (List.mem_cons_of_mem _ hx))]
        simp only [Function.comp, parse_render s (hl s (List.mem_cons_self _ _))]
    exact this pattern hseg
  · simpa using hne
  · intro x hx
    simp only [List.map_map, List.mem_map, Function.comp] at hx
    obtain ⟨s, hs, rfl⟩ := hx
    exact render_no_slash s (hseg s hs)

/-- On the tree that holds one well-formed pattern, `getRouteParams` is the match of
that pattern against the segments of the path. -/
theorem getRouteParams_single (pattern : List Segment) (hwf : WellFormed pattern)
    (path : String) :
    getRouteParams specTree (renderPattern pattern) path =
      match matchSegments pattern (strings.Split path '/') with
      | some ps => (ps, true)
      | none => ([], false) := by
  unfold getRouteParams specTree node.addRoute node.getValue
  simp only [parse_renderPattern pattern hwf, hwf.2.1, List.all_nil, and_self, if_true,
    List.nil_append, bestMatch]
  cases matchSegments pattern (strings.Split path '/') <;> rfl

end server

namespace server

theorem Split_Join (l : List String) :
    strings.Split (strings.Join l "/") '/'
      = (strings.splitChars '/' (strings.joinChars '/' (l.map String.data))).map String.mk := by
  have e : ("/" : String) = ⟨['/']⟩ := rfl
  rw [strings.Split, e, strings.Join_data]

theorem substitute_ne_nil (pattern : List Segment) (values : List String) (h : pattern ≠ []) :
    substitute pattern values ≠ [] := by
  cases pattern with
  | nil => exact absurd rfl h
  | cons s rest =>
    cases s <;> cases values <;> simp [substitute]

/-- The segments of a path that starts with a slash-free segment. -/
theorem Split_Join_cons (x : String) (l : List String) (hl : l ≠ []) (hx : '/' ∉ x.data) :
    strings.Split (strings.Join (x :: l) "/") '/' = x :: strings.Split (strings.Join l "/") '/' := by
  rw [Split_Join, Split_Join, List.map_cons, strings.joinChars_cons _ _ _ (by simpa using hl),
    strings.splitChars_append _ _ _ hx]
  rfl

/-- Round trip, forward: the path obtained by substituting values into a well-formed
pattern matches it, with exactly the substituted values as bindings. -/
theorem matchSegments_instantiate (pattern : List Segment) :
    ∀ values, pattern ≠ [] → trailingWildcard pattern = true →
      (∀ s ∈ pattern, s.WellFormed) → Substitutable pattern values →
      matchSegments pattern (strings.Split (instantiate pattern values) '/')
        = some (bindings pattern values) := by
  induction pattern with
  | nil => intro values h; exact absurd rfl h
  | cons s rest ih =>
    intro values _ htw hseg hsub
    have hs := hseg s (List.mem_cons_self _ _)
    cases rest with
    | nil =>
      cases s with
      | literal text =>
        have hv : values = [] := hsub
        subst hv
        have h1 : '/' ∉ text.data := hs.1
        simp [instantiate, substitute, strings.Join, strings.Split,
          strings.splitChars_of_not_mem _ _ h1, matchSegments, bindings]
      | named name =>
        cases values with
        | nil => exact absurd hsub (by simp [Substitutable])
        | cons v vs =>
          obtain ⟨hv, hvs⟩ := hsub
          have hvs : vs = [] := hvs
          subst hvs
          simp [instantiate, substitute, strings.Join, strings.Split,
            strings.splitChars_of_not_mem _ _ hv, matchSegments, bindings]
      | wildcard name =>
        cases values with
        | nil => exact absurd hsub (by simp [Substitutable])
        | cons v vs =>
          have hvs : vs = [] := hsub
          subst hvs
          simp only [instantiate, substitute, strings.Join, bindings]
          cases hsp : strings.Split v '/' with
          | nil =>
            simp only [strings.Split, List.map_eq_nil_iff] at hsp
            exact absurd hsp (strings.splitChars_ne_nil _ _)
          | cons seg segs =>
            simp only [matchSegments]
            rw [← hsp, strings.Join_Split]
    | cons s2 rest2 =>
      have hseg2 : ∀ x ∈ s2 :: rest2, x.WellFormed := fun x hx => hseg x (List.mem_cons_of_mem _ hx)
      cases s with
      | literal text =>
        have htw2 : trailingWildcard (s2 :: rest2) = true := by simpa [trailingWildcard] using htw
        have hsub2 : Substitutable (s2 :: rest2) values := hsub
        have h1 : '/' ∉ text.data := hs.1
        simp only [instantiate, substitute, bindings]
        rw [Split_Join_cons _ _ (substitute_ne_nil _ _ (by simp)) h1]
        simp only [matchSegments, if_true]
        exact ih values (by simp) htw2 hseg2 hsub2
      | named name =>
        have htw2 : trailingWildcard (s2 :: rest2) = true := by simpa [trailingWildcard] using htw
        cases values with
        | nil => exact absurd hsub (by simp [Substitutable])
        | cons v vs =>
          obtain ⟨hv, hsub2⟩ := hsub
          simp only [instantiate, substitute, bindings]
          rw [Split_Join_cons _ _ (substitute_ne_nil _ _ (by simp)) hv]
          simp only [matchSegments]
          have := ih vs (by simp) htw2 hseg2 hsub2
          simp only [instantiate] at this
          rw [this]
      | wildcard name => simp [trailingWildcard] at htw

end server

namespace server

theorem trailingWildcard_tail (s : Segment) (rest : List Segment)
    (h : trailingWildcard (s :: rest) = true) : trailingWildcard rest = true := by
  cases rest with
  | nil => rfl
  | cons s2 rest2 => cases s <;> simp_all [trailingWildcard]

theorem Join_cons_congr (x : String) (l l1 : List String)
    (h : strings.Join l "/" = strings.Join l1 "/") (hiff : l = [] ↔ l1 = []) :
    strings.Join (x :: l) "/" = strings.Join (x :: l1) "/" := by
  cases l with
  | nil =>
    have : l1 = [] := hiff.1 rfl
    subst this
    rfl
  | cons a l =>
    cases l1 with
    | nil => exact absurd (hiff.2 rfl) (by simp)
    | cons b l1 =>
      simp only [strings.Join] at h ⊢
      rw [h]

theorem bindings_literal (text : String) (pattern : List Segment) (values : List String) :
    bindings (.literal text :: pattern) values = bindings pattern values := by
  cases values <;> rfl

theorem Substitutable_literal (text : String) (pattern : List Segment) (values : List String) :
    Substitutable (.literal text :: pattern) values ↔ Substitutable pattern values := by
  cases values <;> simp [Substitutable]

theorem substitute_literal (text : String) (pattern : List Segment) (values : List String) :
    substitute (.literal text :: pattern) values = text :: substitute pattern values := by
  cases values <;> rfl

/-- Round trip, backward: segments that match a pattern are the pattern with values
substituted for its parameters, and the bindings are those values. -/
theorem matchSegments_sound (pattern : List Segment) :
    ∀ segs ps, trailingWildcard pattern = true → (∀ x ∈ segs, '/' ∉ x.data) →
      matchSegments pattern segs = some ps →
      ∃ values, Substitutable pattern values ∧ ps = bindings pattern values ∧
        strings.Join (substitute pattern values) "/" = strings.Join segs "/" ∧
        (substitute pattern values = [] ↔ segs = []) := by
  induction pattern with
  | nil =>
    intro segs ps _ _ hm
    cases segs with
    | nil =>
      simp only [matchSegments, Option.some.injEq] at hm
      exact ⟨[], rfl, hm.symm, rfl, Iff.rfl⟩
    | cons seg srest => simp [matchSegments] at hm
  | cons s rest ih =>
    intro segs ps htw hsegs hm
    have htw2 := trailingWildcard_tail s rest htw
    cases segs with
    | nil => cases s <;> simp [matchSegments] at hm
    | cons seg srest =>
      have hsrest : ∀ x ∈ srest, '/' ∉ x.data := fun x hx => hsegs x (List.mem_cons_of_mem _ hx)
      cases s with
      | literal text =>
        simp only [matchSegments] at hm
        split at hm
        · rename_i heq
          subst heq
          obtain ⟨values, hsub, hps, hjoin, hiff⟩ := ih srest ps htw2 hsrest hm
          refine ⟨values, (Substitutable_literal _ _ _).2 hsub,
            by rw [bindings_literal]; exact hps, ?_, by simp [substitute_literal]⟩
          rw [substitute_literal]
          exact Join_cons_congr _ _ _ hjoin hiff
        · simp at hm
      | named name =>
        simp only [matchSegments] at hm
        split at hm
        · rename_i ps1 hm1
          obtain ⟨values, hsub, hps, hjoin, hiff⟩ := ih srest ps1 htw2 hsrest hm1
          simp only [Option.some.injEq] at hm
          refine ⟨seg :: values, ⟨hsegs seg (List.mem_cons_self _ _), hsub⟩, ?_, ?_,
            by simp [substitute]⟩
          · rw [← hm, hps]
            rfl
          · simp only [substitute]
            exact Join_cons_congr _ _ _ hjoin hiff
        · simp at hm
      | wildcard name =>
        simp only [matchSegments, Option.some.injEq] at hm
        cases rest with
        | nil =>
          refine ⟨[strings.Join (seg :: srest) "/"], rfl, ?_, rfl, by simp [substitute]⟩
          rw [← hm]
          rfl
        | cons s2 rest2 => simp [trailingWildcard] at htw

/-- C8.  Round trip through the single-pattern trie built by `getRouteParams`, for
every pattern made of literal, named-parameter and trailing-wildcard segments: the
path obtained by substituting values for the parameters of the pattern is matched
(`true`) with the parameters in declaration order, each bound to exactly the value
substituted for it; and a path that is no such instance of the pattern gets
`(nil, false)`. -/
theorem getRouteParams_round_trip (pattern : List Segment) (hwf : WellFormed pattern) :
    (∀ values, Substitutable pattern values →
        getRouteParams specTree (renderPattern pattern) (instantiate pattern values)
          = (bindings pattern values, true)) ∧
      (∀ path, (∀ values, Substitutable pattern values → path ≠ instantiate pattern values) →
        getRouteParams specTree (renderPattern pattern) path = ([], false)) := by
  constructor
  · intro values hsub
    rw [getRouteParams_single pattern hwf,
      matchSegments_instantiate pattern values hwf.1 hwf.2.1 hwf.2.2 hsub]
  · intro path hpath
    rw [getRouteParams_single pattern hwf]
    cases hm : matchSegments pattern (strings.Split path '/') with
    | none => rfl
    | some ps =>
      exfalso
      have hsegs : ∀ x ∈ strings.Split path '/', '/' ∉ x.data := by
        intro x hx
        simp only [strings.Split, List.mem_map] at hx
        obtain ⟨piece, hpiece, rfl⟩ := hx
        exact strings.not_mem_of_mem_splitChars '/' _ piece hpiece
      obtain ⟨values, hsub, _, hjoin, _⟩ :=
        matchSegments_sound pattern _ ps hwf.2.1 hsegs hm
      apply hpath values hsub
      rw [instantiate, hjoin, strings.Join_Split]

/-- C8 at the pattern `/users/:id/files/*rest`: the path `/users/42/files/a/b.txt`
binds `id` to `42` and `rest` to `a/b.txt`. -/
theorem getRouteParams_round_trip_witness :
    getRouteParams specTree "/users/:id/files/*rest" "/users/42/files/a/b.txt"
      = ([⟨"id", "42"⟩, ⟨"rest", "a/b.txt"⟩], true) :=
  (getRouteParams_round_trip
    [.literal "", .literal "users", .named "id", .literal "files", .wildcard "rest"]
    (by simp [WellFormed, Segment.WellFormed, trailingWildcard])).1 ["42", "a/b.txt"]
    (by simp [Substitutable])

end server

/-! ## `unicode/utf8`: decoding what was encoded -/

namespace utf8

/-- A Unicode scalar value: a code point that is no surrogate. -/
theorem char_valid (c : Char) :
    c.toNat < 0xD800 ∨ (0xDFFF < c.toNat ∧ c.toNat < 0x110000) := by
  have h := c.valid
  simpa [UInt32.isValidChar, Nat.isValidChar, Char.toNat] using h

/-- Decoding reads back an encoded scalar value, and takes exactly its bytes. -/
theorem DecodeRune_EncodeRune (r : Nat) (h : r < 0xD800 ∨ (0xDFFF < r ∧ r < 0x110000))
    (rest : List Nat) :
    DecodeRune (EncodeRune r ++ rest) = (r, (EncodeRune r).length) := by
  unfold EncodeRune
  split
  · rename_i h1
    simp only [List.singleton_append, DecodeRune, List.length_singleton]
    rw [if_pos (by omega)]
  · split
    · rename_i h1 h2
      have hacc : ¬ (0x80 + r % 0x40 < acceptLo (0xC0 + r / 0x40) ∨
          acceptHi (0xC0 + r / 0x40) < 0x80 + r % 0x40) := by
        unfold acceptLo acceptHi
        repeat' split
        all_goals omega
      simp only [List.cons_append, List.nil_append, DecodeRune]
      rw [if_neg (by omega), if_neg (by omega), if_neg hacc, if_pos (by omega)]
      simp only [List.length_cons, List.length_nil, Prod.mk.injEq, and_true]
      omega
    · split
      · omega
      · split
        · rename_i h1 h2 h3 h4
          have hacc : ¬ (0x80 + r / 0x40 % 0x40 < acceptLo (0xE0 + r / 0x1000) ∨
              acceptHi (0xE0 + r / 0x1000) < 0x80 + r / 0x40 % 0x40) := by
            unfold acceptLo acceptHi
            repeat' split
            all_goals omega
          simp only [List.cons_append, List.nil_append, DecodeRune]
          rw [if_neg (by omega), if_neg (by omega), if_neg hacc, if_neg (by omega),
            if_neg (by omega), if_pos (by omega)]
          simp only [List.length_cons, List.length_nil, Prod.mk.injEq, and_true]
          omega
        · rename_i h1 h2 h3 h4
          have hacc : ¬ (0x80 + r / 0x1000 % 0x40 < acceptLo (0xF0 + r / 0x40000) ∨
              acceptHi (0xF0 + r / 0x40000) < 0x80 + r / 0x1000 % 0x40) := by
            unfold acceptLo acceptHi
            repeat' split
            all_goals omega
          simp only [List.cons_append, List.nil_append, DecodeRune]
          rw [if_neg (by omega), if_neg (by omega), if_neg hacc, if_neg (by omega),
            if_neg (by omega), if_neg (by omega), if_neg (by omega)]
          simp only [List.length_cons, List.length_nil, Prod.mk.injEq, and_true]
          omega

end utf8

namespace utf8

theorem EncodeRune_length_pos (r : Nat) : 0 < (EncodeRune r).length := by
  unfold EncodeRune
  repeat' split
  all_goals simp

/-- `[]rune(string(r))` gives the runes back when they are scalar values. -/
theorem toRunesLoop_fromRunes (rs : List Nat)
    (hrs : ∀ r ∈ rs, r < 0xD800 ∨ (0xDFFF < r ∧ r < 0x110000)) :
    ∀ fuel, (fromRunes rs).length ≤ fuel → toRunesLoop fuel (fromRunes rs) = rs := by
  induction rs with
  | nil =>
    intro fuel _
    cases fuel <;> rfl
  | cons r rs ih =>
    intro fuel hfuel
    have hpos := EncodeRune_length_pos r
    have hdec := DecodeRune_EncodeRune r (hrs r (List.mem_cons_self _ _)) (fromRunes rs)
    simp only [fromRunes, List.length_append] at hfuel hdec ⊢
    cases fuel with
    | zero => omega
    | succ fuel =>
      cases henc : EncodeRune r ++ fromRunes rs with
      | nil =>
        have := congrArg List.length henc
        simp only [List.length_append, List.length_nil] at this
        omega
      | cons b bs =>
        simp only [toRunesLoop]
        rw [← henc, hdec]
        simp only [List.drop_left]
        rw [ih (fun x hx => hrs x (List.mem_cons_of_mem _ hx)) fuel (by omega)]

/-- The runes of the encoding of a text are its characters. -/
theorem toRunes_encode (cs : List Char) : toRunes (encode cs) = cs.map Char.toNat := by
  unfold toRunes encode
  apply toRunesLoop_fromRunes
  · intro r hr
    obtain ⟨c, _, rfl⟩ := List.mem_map.1 hr
    exact char_valid c
  · exact Nat.le_refl _

theorem encode_nil : encode [] = [] := rfl

theorem encode_cons (c : Char) (cs : List Char) :
    encode (c :: cs) = EncodeRune c.toNat ++ encode cs := rfl

theorem encode_append (xs ys : List Char) : encode (xs ++ ys) = encode xs ++ encode ys := by
  induction xs with
  | nil => rfl
  | cons c cs ih => simp only [List.cons_append, encode_cons, ih, List.append_assoc]

/-- Different texts have different encodings. -/
theorem encode_injective (xs ys : List Char) (h : encode xs = encode ys) : xs = ys := by
  have h1 := toRunes_encode xs
  rw [h, toRunes_encode] at h1
  have inj : Function.Injective Char.toNat := by
    intro a b hab
    apply Char.ext
    apply UInt32.ext
    exact hab
  exact (List.map_injective_iff.2 inj h1).symm

/-- The byte `/` occurs in an encoding only as the character `/`. -/
theorem separator_mem_EncodeRune (c : Char) (h : 0x2F ∈ EncodeRune c.toNat) : c = '/' := by
  unfold EncodeRune at h
  have inj : c.toNat = 0x2F → c = '/' := by
    intro e
    apply Char.ext
    apply UInt32.ext
    exact e
  repeat' split at h
  all_goals simp only [List.mem_cons, List.mem_singleton, List.not_mem_nil, or_false] at h
  · exact inj h.symm
  all_goals omega

theorem separator_not_mem_encode (cs : List Char) (h : '/' ∉ cs) : 0x2F ∉ encode cs := by
  induction cs with
  | nil => simp [encode_nil]
  | cons c cs ih =>
    rw [encode_cons, List.mem_append]
    rintro (hm | hm)
    · exact h (separator_mem_EncodeRune c hm ▸ List.mem_cons_self _ _)
    · exact ih (fun e => h (List.mem_cons_of_mem _ e)) hm

theorem encode_separator (cs : List Char) : encode ('/' :: cs) = 0x2F :: encode cs := rfl

end utf8

/-! ## `fn/publish.go`: `reverse` -/

namespace fn

theorem swap_length (r : List Nat) (i j : Nat) : (swap r i j).length = r.length := by
  unfold swap
  split <;> simp

theorem swap_getElem? (r : List Nat) (i j k : Nat) (hi : i < r.length) (hj : j < r.length) :
    (swap r i j)[k]? = if k = j then r[i]? else if k = i then r[j]? else r[k]? := by
  unfold swap
  rw [List.getElem?_eq_getElem hi, List.getElem?_eq_getElem hj]
  simp only [List.getElem?_set, List.length_set]
  by_cases h1 : k = j
  · subst h1
    simp [hj]
  · by_cases h2 : k = i
    · subst h2
      simp [h1, hi, Ne.symm h1]
    · simp [h1, h2, Ne.symm h1, Ne.symm h2]

/-- What the loop of `reverse` leaves in the slice: the part between `i` and its
mirror position is reversed, the rest is untouched. -/
theorem reverseLoop_getElem? (n : Nat) :
    ∀ (fuel : Nat) (r : List Nat) (i : Nat), r.length = n → i ≤ n / 2 → n / 2 ≤ i + fuel →
      ∀ k, (reverseLoop fuel r i (n - 1 - i))[k]?
        = if i ≤ k ∧ k < n - i then r[n - 1 - k]? else r[k]? := by
  intro fuel
  induction fuel with
  | zero =>
    intro r i hn hi hfuel k
    simp only [reverseLoop]
    split
    · rename_i hk
      have : n - 1 - k = k := by omega
      rw [this]
    · rfl
  | succ fuel ih =>
    intro r i hn hi hfuel k
    simp only [reverseLoop]
    split
    · rename_i hlt
      rw [hn] at hlt
      have hstep : n - 1 - i - 1 = n - 1 - (i + 1) := by omega
      rw [hstep, ih (swap r i (n - 1 - i)) (i + 1) (by rw [swap_length, hn]) (by omega) (by omega) k]
      have hi1 : i < r.length := by omega
      have hj1 : n - 1 - i < r.length := by omega
      rw [swap_getElem? r i (n - 1 - i) _ hi1 hj1, swap_getElem? r i (n - 1 - i) _ hi1 hj1]
      by_cases hk : i + 1 ≤ k ∧ k < n - (i + 1)
      · rw [if_pos hk, if_pos (by omega : i ≤ k ∧ k < n - i), if_neg (by omega), if_neg (by omega)]
      · rw [if_neg hk]
        by_cases hk1 : k = n - 1 - i
        · rw [if_pos hk1, if_pos (by omega : i ≤ k ∧ k < n - i)]
          congr 1
          omega
        · rw [if_neg hk1]
          by_cases hk2 : k = i
          · rw [if_pos hk2, if_pos (by omega : i ≤ k ∧ k < n - i)]
            congr 1
            omega
          · rw [if_neg hk2, if_neg (by omega)]
    · rename_i hge
      rw [hn] at hge
      split
      · rename_i hk
        have : n - 1 - k = k := by omega
        rw [this]
      · rfl

/-- The loop of `reverse` reverses the rune slice; its `len(r)/2` iterations are
within the bound. -/
theorem reverseLoop_eq (r : List Nat) : reverseLoop r.length r 0 (r.length - 1) = r.reverse := by
  apply List.ext_getElem?
  intro k
  have h := reverseLoop_getElem? r.length r.length r 0 rfl (Nat.zero_le _) (by omega) k
  simp only [Nat.sub_zero] at h
  rw [h]
  by_cases hk : k < r.length
  · rw [if_pos ⟨Nat.zero_le _, hk⟩, List.getElem?_reverse hk]
  · rw [if_neg (by omega)]
    rw [List.getElem?_eq_none (by omega), List.getElem?_eq_none (by rw [List.length_reverse]; omega)]

/-- On every byte string, `reverse` is: decode, reverse the runes, encode. -/
theorem reverse_eq (s : List Nat) : reverse s = utf8.fromRunes (utf8.toRunes s).reverse := by
  unfold reverse
  simp only [reverseLoop_eq]

/-- On the encoding of a text, `reverse` gives the encoding of the reversed text. -/
theorem reverse_encode (cs : List Char) : reverse (utf8.encode cs) = utf8.encode cs.reverse := by
  rw [reverse_eq, utf8.toRunes_encode, utf8.encode, List.map_reverse]

/-- On valid UTF-8, reversing twice gives the string back. -/
theorem reverse_reverse (s : String) : reverse (reverse (utf8.bytes s)) = utf8.bytes s := by
  unfold utf8.bytes
  rw [reverse_encode, reverse_encode, List.reverse_reverse]

end fn

/-! ## `fn/publish.go`: `extractAppNameRoute` -/

namespace fn

theorem dropWhile_append_stop (p : Nat → Bool) (a T : List Nat) (x : Nat)
    (h : ∀ c ∈ a, p c = true) (hx : p x = false) : (a ++ x :: T).dropWhile p = x :: T := by
  induction a with
  | nil => simp [List.dropWhile, hx]
  | cons c cs ih =>
    simp [List.dropWhile, h c (List.mem_cons_self _ _),
      ih (fun y hy => h y (List.mem_cons_of_mem _ hy))]

theorem takeWhile_append_stop (p : Nat → Bool) (a T : List Nat) (x : Nat)
    (h : ∀ c ∈ a, p c = true) (hx : p x = false) : (a ++ x :: T).takeWhile p = a := by
  induction a with
  | nil => simp [List.takeWhile, hx]
  | cons c cs ih =>
    simp [List.takeWhile, h c (List.mem_cons_self _ _),
      ih (fun y hy => h y (List.mem_cons_of_mem _ hy))]

/-- Walking back from the end of `X/Y`, where `Y` holds no separator, stops at the
separator: the directory part is `X/`. -/
theorem rdropWhile_append_stop (p : Nat → Bool) (X Y : List Nat) (x : Nat)
    (h : ∀ c ∈ Y, p c = true) (hx : p x = false) : (X ++ x :: Y).rdropWhile p = X ++ [x] := by
  unfold List.rdropWhile
  rw [List.reverse_append, List.reverse_cons, List.append_assoc, List.singleton_append,
    dropWhile_append_stop p Y.reverse _ x (fun c hc => h c (List.mem_reverse.1 hc)) hx]
  simp

/-- And the file part is `Y`. -/
theorem rtakeWhile_append_stop (p : Nat → Bool) (X Y : List Nat) (x : Nat)
    (h : ∀ c ∈ Y, p c = true) (hx : p x = false) : (X ++ x :: Y).rtakeWhile p = Y := by
  unfold List.rtakeWhile
  rw [List.reverse_append, List.reverse_cons, List.append_assoc, List.singleton_append,
    takeWhile_append_stop p Y.reverse _ x (fun c hc => h c (List.mem_reverse.1 hc)) hx]
  simp

theorem ne_separator_of_not_mem (cs : List Char) (h : '/' ∉ cs) :
    ∀ b ∈ utf8.encode cs, (fun b : Nat => decide (b ≠ filepath.Separator)) b = true := by
  intro b hb
  have : b ≠ 0x2F := fun e => utf8.separator_not_mem_encode cs h (e ▸ hb)
  simpa [filepath.Separator] using this

/-- The text of `r1/.../rn/f`. -/
theorem Join_concat_data (rs : List String) (f : String) :
    (strings.Join (rs ++ [f]) "/").data = withSlashes rs ++ f.data := by
  induction rs with
  | nil => rfl
  | cons r rs ih =>
    cases h : rs ++ [f] with
    | nil => simp at h
    | cons b rest =>
      rw [h] at ih
      simp only [List.cons_append, h, strings.Join, String.data_append, withSlashes, ih]
      simp

/-- The text of `a/r1/.../rn/f`. -/
theorem path_data (a f : String) (rs : List String) :
    (strings.Join (a :: rs ++ [f]) "/").data = a.data ++ '/' :: (withSlashes rs ++ f.data) := by
  cases h : rs ++ [f] with
  | nil => simp at h
  | cons b rest =>
    simp only [List.cons_append, h, strings.Join, String.data_append]
    rw [← h, Join_concat_data]
    simp

/-- A slash followed by `r1/.../rn/` ends in a slash. -/
theorem slash_withSlashes_concat (rs : List String) :
    ∃ Y, '/' :: withSlashes rs = Y ++ ['/'] := by
  induction rs with
  | nil => exact ⟨[], rfl⟩
  | cons r rs ih =>
    obtain ⟨Y, hY⟩ := ih
    refine ⟨'/' :: r.data ++ Y, ?_⟩
    simp only [withSlashes, List.cons_append, List.append_assoc]
    rw [← hY]

/-- A path without separator is one element. -/
theorem elements_of_not_mem (a : List Nat) (h : filepath.Separator ∉ a) :
    filepath.elements a = [a] := by
  induction a with
  | nil => rfl
  | cons c cs ih =>
    have hc : c ≠ filepath.Separator := fun e => h (e ▸ List.mem_cons_self _ _)
    have hcs : filepath.Separator ∉ cs := fun e => h (List.mem_cons_of_mem _ e)
    simp [filepath.elements, hc, ih hcs]

/-- The first element ends at the first separator. -/
theorem elements_append (a b : List Nat) (h : filepath.Separator ∉ a) :
    filepath.elements (a ++ filepath.Separator :: b) = a :: filepath.elements b := by
  induction a with
  | nil => simp [filepath.elements]
  | cons c cs ih =>
    have hc : c ≠ filepath.Separator := fun e => h (e ▸ List.mem_cons_self _ _)
    have hcs : filepath.Separator ∉ cs := fun e => h (List.mem_cons_of_mem _ e)
    simp [filepath.elements, hc, ih hcs]

theorem elements_withSlashes (rs : List String) (h : ∀ r ∈ rs, '/' ∉ r.data) :
    filepath.elements (utf8.encode (withSlashes rs)) = rs.map utf8.bytes ++ [[]] := by
  induction rs with
  | nil => rfl
  | cons r rs ih =>
    simp only [withSlashes]
    rw [utf8.encode_append, utf8.encode_separator]
    have hsep : filepath.Separator ∉ utf8.encode r.data :=
      utf8.separator_not_mem_encode _ (h r (List.mem_cons_self _ _))
    have e : (0x2F : Nat) = filepath.Separator := rfl
    rw [e, elements_append _ _ hsep, ih (fun x hx => h x (List.mem_cons_of_mem _ hx))]
    rfl

theorem cleanElems_plain (rs : List String) (out : List (List Nat))
    (h : ∀ r ∈ rs, r ≠ "" ∧ r ≠ "." ∧ r ≠ "..") :
    filepath.cleanElems true (rs.map utf8.bytes ++ [[]]) out
      = out.reverse ++ rs.map utf8.bytes := by
  induction rs generalizing out with
  | nil => simp [filepath.cleanElems]
  | cons r rs ih =>
    obtain ⟨h1, h2, h3⟩ := h r (List.mem_cons_self _ _)
    have e1 : utf8.bytes r ≠ [] := fun e =>
      h1 (String.ext (utf8.encode_injective r.data [] e))
    have e2 : utf8.bytes r ≠ [0x2E] := fun e =>
      h2 (String.ext (utf8.encode_injective r.data ['.'] e))
    have e3 : utf8.bytes r ≠ [0x2E, 0x2E] := fun e =>
      h3 (String.ext (utf8.encode_injective r.data ['.', '.'] e))
    simp only [List.map_cons, List.cons_append, filepath.cleanElems, e1, e2, e3, or_self,
      if_false, List.append_eq]
    rw [ih _ (fun x hx => h x (List.mem_cons_of_mem _ hx))]
    simp

/-- The bytes of `r1/.../rn`. -/
theorem joinElems_bytes (rs : List String) :
    filepath.joinElems (rs.map utf8.bytes) = utf8.bytes (strings.Join rs "/") := by
  induction rs with
  | nil => rfl
  | cons a l ih =>
    cases l with
    | nil => rfl
    | cons b l =>
      simp only [List.map_cons, filepath.joinElems, strings.Join] at ih ⊢
      rw [ih]
      simp only [utf8.bytes, String.data_append, utf8.encode_append]
      rw [List.append_assoc]
      rfl

/-- The directory of `/r1/.../rn/f` is `/r1/.../rn` when no `ri` is empty, `.` or
`..`. -/
theorem Dir_of_components (rs : List String) (f : String)
    (hrs : ∀ r ∈ rs, '/' ∉ r.data ∧ r ≠ "" ∧ r ≠ "." ∧ r ≠ "..") (hf : '/' ∉ f.data) :
    filepath.Dir (utf8.encode ('/' :: (withSlashes rs ++ f.data)))
      = utf8.bytes ("/" ++ strings.Join rs "/") := by
  obtain ⟨Y, hY⟩ := slash_withSlashes_concat rs
  have hdir : (filepath.Split (utf8.encode ('/' :: (withSlashes rs ++ f.data)))).1
      = filepath.Separator :: utf8.encode (withSlashes rs) := by
    unfold filepath.Split
    simp only
    rw [← List.cons_append, hY, List.append_assoc, utf8.encode_append, List.singleton_append,
      utf8.encode_separator]
    have e : (0x2F : Nat) = filepath.Separator := rfl
    rw [e, rdropWhile_append_stop (fun b => decide (b ≠ filepath.Separator)) _ _
      filepath.Separator (ne_separator_of_not_mem _ hf) (by simp)]
    have e2 : utf8.encode Y ++ [filepath.Separator] = utf8.encode (Y ++ ['/']) := by
      rw [utf8.encode_append]
      rfl
    rw [e2, ← hY]
    rfl
  unfold filepath.Dir
  rw [hdir]
  unfold filepath.Clean
  simp only [List.head?_cons, decide_True, if_true, filepath.elements,
    elements_withSlashes rs (fun r hr => (hrs r hr).1)]
  simp only [filepath.cleanElems, true_or, if_true]
  rw [cleanElems_plain rs [] (fun r hr => (hrs r hr).2), List.reverse_nil, List.nil_append,
    joinElems_bytes]
  simp only [List.singleton_append]
  rw [if_neg (by simp)]
  rfl

/-- C10, as stated, fails, in two ways.  The components of `a/./f` are non-empty and
hold no separator, and the claimed route is `/.`, but `extractAppNameRoute` returns
the route `/`: `filepath.Dir` cleans the directory and drops the `.` element.  And
for the path `caf\\xe9/r/f`, whose first component ends in the byte `0xE9` (not valid
UTF-8), the app name returned is not that component: `reverse` turns the byte into
U+FFFD, and reversing `[0xE9]` twice gives `[0xEF, 0xBF, 0xBD]`. -/
theorem dot_component_is_dropped :
    strings.Join ["a", ".", "f"] "/" = "a/./f" ∧
      "/" ++ strings.Join ["."] "/" = "/." ∧
      extractAppNameRoute (utf8.bytes "a/./f") = (utf8.bytes "a", utf8.bytes "/") ∧
      extractAppNameRoute (utf8.bytes "caf" ++ [0xE9] ++ utf8.bytes "/r/f")
        = (utf8.bytes "caf" ++ [0xEF, 0xBF, 0xBD], utf8.bytes "/r") ∧
      reverse (reverse [0xE9]) = [0xEF, 0xBF, 0xBD] := by
  decide

/-- C10, amended.  For every path `a/r1/.../rn/f` (`n ≥ 0`) that is valid UTF-8 (the
bytes of a text), whose components hold no separator and whose `r1 .. rn` are
non-empty and none of `.` and `..`, `extractAppNameRoute` returns the first
component `a` as the app name and `/r1/.../rn` as the route (`/` when `n = 0`); and
`reverse`, on which this rests, gives a valid UTF-8 string back when applied
twice. -/
theorem extractAppNameRoute_components (a f : String) (rs : List String)
    (ha : '/' ∉ a.data) (hf : '/' ∉ f.data)
    (hrs : ∀ r ∈ rs, '/' ∉ r.data ∧ r ≠ "" ∧ r ≠ "." ∧ r ≠ "..") :
    extractAppNameRoute (utf8.bytes (strings.Join (a :: rs ++ [f]) "/"))
        = (utf8.bytes a, utf8.bytes ("/" ++ strings.Join rs "/")) ∧
      ∀ s : String, reverse (reverse (utf8.bytes s)) = utf8.bytes s := by
  refine ⟨?_, reverse_reverse⟩
  have hrev : reverse (utf8.bytes (strings.Join (a :: rs ++ [f]) "/"))
      = utf8.encode (withSlashes rs ++ f.data).reverse ++
          filepath.Separator :: utf8.encode a.data.reverse := by
    unfold utf8.bytes
    rw [reverse_encode, path_data, List.reverse_append, List.reverse_cons, List.append_assoc,
      utf8.encode_append, List.singleton_append, utf8.encode_separator]
    rfl
  have hna : '/' ∉ a.data.reverse := fun e => ha (List.mem_reverse.1 e)
  unfold extractAppNameRoute filepath.Split
  simp only [hrev,
    rdropWhile_append_stop (fun b => decide (b ≠ filepath.Separator)) _ _ filepath.Separator
      (ne_separator_of_not_mem _ hna) (by simp),
    rtakeWhile_append_stop (fun b => decide (b ≠ filepath.Separator)) _ _ filepath.Separator
      (ne_separator_of_not_mem _ hna) (by simp)]
  have e1 : utf8.encode (withSlashes rs ++ f.data).reverse ++ [filepath.Separator]
      = utf8.encode ((withSlashes rs ++ f.data).reverse ++ ['/']) := by
    rw [utf8.encode_append]
    rfl
  rw [e1, reverse_encode, reverse_encode, List.reverse_append, List.reverse_reverse,
    List.reverse_reverse]
  simp only [List.reverse_cons, List.reverse_nil, List.nil_append, List.singleton_append]
  rw [Dir_of_components rs f hrs hf]
  rfl

/-- C10, amended, at `app/users/list/func.yaml`, at `app/func.yaml` and at the
valid UTF-8 path `café/r/f`. -/
theorem extractAppNameRoute_components_witness :
    extractAppNameRoute (utf8.bytes "app/users/list/func.yaml")
        = (utf8.bytes "app", utf8.bytes "/users/list") ∧
      extractAppNameRoute (utf8.bytes "app/func.yaml") = (utf8.bytes "app", utf8.bytes "/") ∧
      extractAppNameRoute (utf8.bytes "café/r/f") = (utf8.bytes "café", utf8.bytes "/r") :=
  ⟨(extractAppNameRoute_components "app" "func.yaml" ["users", "list"] (by decide) (by decide)
      (by decide)).1,
    (extractAppNameRoute_components "app" "func.yaml" [] (by decide) (by decide)
      (by decide)).1,
    (extractAppNameRoute_components "café" "f" ["r"] (by decide) (by decide)
      (by decide)).1⟩

end fn
